import Mathlib

/-!
Shallow embedding of the scoring/ranking core of `src/services/data-processor.service.ts`
(the JsonToExcel_supper repository), together with theorems checking the
natural-language specification's claims against it.

Records are association lists from field names to JavaScript values.  The
embedding mirrors the TypeScript source function by function: `inferIdField`,
`identifySubjects`, `mergeData`, `normalizeClassName`,
`normalizeCombinationString`, `inferCombinations`, `processInChunks`
(chunked scoring plus rank passes), `calcRanks` and `calcCombinationRanks`.
JavaScript numbers are modeled as rationals (the source only adds, subtracts,
divides and rounds score values, so no floating-point rounding is relevant at
the claimed properties); `Number(x) || 0` becomes `numOr0`; in-place mutation
of shared row objects is modeled by indexing rows with their position and
merging updates back by index.
-/

/-- JavaScript scalar values as they occur in this pipeline's records: numbers
(modeled as rationals), strings, booleans, null, and arrays of strings (the
only arrays the pipeline stores, under the `_combinations` key). -/
inductive JSVal where
  | num (q : ℚ)
  | str (s : String)
  | boolV (b : Bool)
  | nullV
  | strList (l : List String)
  deriving DecidableEq

/-- A record is a JavaScript object: an ordered association list from field
names to values, with the JS invariant that keys are not duplicated. -/
abbrev Record := List (String × JSVal)

/-- Property lookup `r[k]`; `none` models `undefined` (missing key). -/
def getVal (r : Record) (k : String) : Option JSVal :=
  (r.find? (fun p => p.1 == k)).map Prod.snd

/-- Property assignment on an association list: replaces the value in place if
the key exists (keeping its position, as JS objects do), else appends. -/
def assocSet {β : Type} : List (String × β) → String → β → List (String × β)
  | [], k, v => [(k, v)]
  | (k', v') :: rest, k, v =>
    if k' == k then (k, v) :: rest else (k', v') :: assocSet rest k v

/-- Property assignment `r[k] = v`. -/
def setVal (r : Record) (k : String) (v : JSVal) : Record := assocSet r k v

/-- Characters treated as whitespace by JS `trim` / `\s` (the subset occurring
in this repository's data: ASCII whitespace plus NBSP, ideographic space and
BOM). -/
def jsWhitespaceChar (c : Char) : Bool :=
  c == ' ' || c == '\t' || c == '\n' || c == '\r' ||
  c == Char.ofNat 0x0b || c == Char.ofNat 0x0c ||
  c == Char.ofNat 0xa0 || c == Char.ofNat 0x3000 || c == Char.ofNat 0xfeff

/-- Decimal digit test. -/
def isDigitChar (c : Char) : Bool := '0' ≤ c && c ≤ '9'

/-- Value of a digit run (most significant first). -/
def digitsVal (cs : List Char) : ℚ :=
  cs.foldl (fun acc c => acc * 10 + ((c.toNat - 48 : ℕ) : ℚ)) 0

/-- Unsigned decimal numeral with optional fractional part, as accepted by JS
`Number()` (`"12"`, `"12."`, `".5"`, `"12.5"`); `none` is NaN. -/
def parseDecCore (cs : List Char) : Option ℚ :=
  let intPart := cs.takeWhile isDigitChar
  let rest := cs.dropWhile isDigitChar
  match rest with
  | [] => if intPart.isEmpty then none else some (digitsVal intPart)
  | '.' :: frac =>
    if frac.all isDigitChar && (!intPart.isEmpty || !frac.isEmpty) then
      some (digitsVal intPart + digitsVal frac / (10 : ℚ) ^ frac.length)
    else none
  | _ => none

/-- JS `Number()` coercion on strings, decimal subset: whitespace-trimmed,
optional sign, digits with optional fraction; the empty string is 0.  Hex,
binary, octal, exponent and Infinity literals do not occur in this
repository's data and are not modeled.  `none` represents NaN. -/
def parseNumStr (s : String) : Option ℚ :=
  let cs :=
    ((s.toList.dropWhile jsWhitespaceChar).reverse.dropWhile jsWhitespaceChar).reverse
  match cs with
  | [] => some 0
  | '-' :: rest => (parseDecCore rest).map (fun q => -q)
  | '+' :: rest => parseDecCore rest
  | _ => parseDecCore cs

/-- JS `Number(v)` for a present value; `none` represents NaN.  Arrays are
coerced through their string form in JS; the only stored arrays are
combination lists, which are never numerically coerced, so they are modeled
as NaN. -/
def jsToNumber (v : JSVal) : Option ℚ :=
  match v with
  | .num q => some q
  | .str s => parseNumStr s
  | .boolV b => some (if b then 1 else 0)
  | .nullV => some 0
  | .strList _ => none

/-- JS `Number(r[k])`; a missing key is `undefined`, whose coercion is NaN. -/
def jsNumField (r : Record) (k : String) : Option ℚ :=
  match getVal r k with
  | some v => jsToNumber v
  | none => none

/-- The source's pervasive `Number(r[k]) || 0` read: NaN (and 0) become 0. -/
def numOr0 (r : Record) (k : String) : ℚ := (jsNumField r k).getD 0

/-- JS truthiness of a value. -/
def truthy (v : JSVal) : Bool :=
  match v with
  | .num q => q != 0
  | .str s => s != ""
  | .boolV b => b
  | .nullV => false
  | .strList _ => true

/-- JS truthiness of a possibly-undefined value. -/
def truthyOpt (v : Option JSVal) : Bool :=
  match v with
  | some v => truthy v
  | none => false

/-- JS `String(v)` coercion.  Integers render exactly; non-integer numbers use
Lean's rational rendering (never exercised: the values the source stringifies
are strings or integers). -/
def jsToString (v : JSVal) : String :=
  match v with
  | .str s => s
  | .num q => if q.den == 1 then toString q.num else toString q
  | .boolV b => if b then "true" else "false"
  | .nullV => "null"
  | .strList l => String.intercalate "," l

/-- JS `String(x)` where `x` may be `undefined`. -/
def jsToStringOpt (v : Option JSVal) : String :=
  match v with
  | some v => jsToString v
  | none => "undefined"

/-- JS `a || b` on possibly-undefined values. -/
def orV (a b : Option JSVal) : Option JSVal := if truthyOpt a then a else b

/-- JS `Math.round`: round half toward positive infinity. -/
def jsRound (q : ℚ) : ℤ := ⌊q + 1 / 2⌋

/-- Lower-casing of a string, character by character (JS `toLowerCase` on the
ASCII/CJK strings occurring here). -/
def lowerStr (s : String) : String := String.mk (s.data.map Char.toLower)

/-- Whether `needle` occurs at the head of `hay`. -/
def matchAt : List Char → List Char → Bool
  | [], _ => true
  | _ :: _, [] => false
  | a :: as, b :: bs => a == b && matchAt as bs

/-- Whether `needle` occurs contiguously anywhere in `hay`. -/
def containsSeq (needle : List Char) : List Char → Bool
  | [] => needle.isEmpty
  | b :: bs => matchAt needle (b :: bs) || containsSeq needle bs

/-- Substring test, the meaning of JS `hay.includes(needle)`. -/
def containsSub (hay needle : String) : Bool := containsSeq needle.toList hay.toList

/-- Case-insensitive substring test, the meaning of the source's `/word/i`
regex tests. -/
def containsCI (hay needle : String) : Bool :=
  containsSub (lowerStr hay) (lowerStr needle)

/-- The fixed identity-field name patterns of `inferIdField`, in source order:
`/考号/i, /学号/i, /ID/i, /^id$/i, /student_id/i, /uid/i, /no/i, /code/i`. -/
def idPatterns : List (String → Bool) :=
  [fun k => containsCI k "考号",
   fun k => containsCI k "学号",
   fun k => containsCI k "id",
   fun k => lowerStr k == "id",
   fun k => containsCI k "student_id",
   fun k => containsCI k "uid",
   fun k => containsCI k "no",
   fun k => containsCI k "code"]

/-- The pattern-major search of `inferIdField`: for each pattern in order,
return the first key that pattern matches. -/
def firstPatternHit : List (String → Bool) → List String → Option String
  | [], _ => none
  | p :: ps, keys =>
    match keys.find? p with
    | some k => k
    | none => firstPatternHit ps keys

/-- The uniqueness-fallback test exactly as `inferIdField` performs it
(source lines 209-216): the value set (`new Set(values)`) has as many distinct
values as there are records, and the FIRST record's value is a string or a
number; later records' value types and presence are not checked. -/
def codeUniqueFieldOk (data : List Record) (key : String) : Bool :=
  let values := data.map (fun item => getVal item key)
  values.dedup.length == data.length &&
    (match values with
     | some (.num _) :: _ => true
     | some (.str _) :: _ => true
     | _ => false)

/-- `inferIdField` (source lines 201-218): pattern priority list, then the
first key passing the uniqueness fallback, then the first key. -/
def inferIdField (data : List Record) : String :=
  match data with
  | [] => ""
  | first :: _ =>
    let keys := first.map Prod.fst
    match firstPatternHit idPatterns keys with
    | some k => k
    | none =>
      match keys.find? (codeUniqueFieldOk data) with
      | some k => k
      | none => keys.headD ""

/-- The `excludeCombos` word list of `identifySubjects`. -/
def excludeComboWords : List String :=
  ["理化", "史政", "生地", "政史", "化生", "物化", "地政", "文综", "理综"]

/-- The `excludeKeywords` word list of `identifySubjects`. -/
def excludeKeywordList : List String :=
  ["总分", "total", "score_sum", "备注", "状态", "排名", "序号", "id",
   "考号", "学号", "姓名", "班级", "年级", "_raw", "class", "grade", "name"]

/-- The `small4Keywords` designating rebasing ("small-four") subjects. -/
def small4Keywords : List String :=
  ["政治", "地理", "化学", "生物", "politics", "geography", "chemistry", "biology"]

/-- An alternation regex `/(w1|w2|...)/i` applied to `k`. -/
def testAnyCI (k : String) (ws : List String) : Bool := ws.any (fun w => containsCI k w)

/-- `identifySubjects` (source lines 220-241): from the first record's keys,
keep numeric, non-empty, non-null fields that are not the id field and match
no exclusion word; split off the rebasing subset by keyword. -/
def identifySubjects (data : List Record) (idField : String) :
    List String × List String × List String :=
  match data with
  | [] => ([], [], [])
  | record :: _ =>
    let keys := record.map Prod.fst
    let subjects := keys.filter (fun key =>
      if key == idField then false
      else
        match getVal record key with
        | none => false
        | some v =>
          match jsToNumber v with
          | none => false
          | some _ =>
            if v == .str "" || v == .nullV then false
            else !(testAnyCI key excludeKeywordList) && !(testAnyCI key excludeComboWords))
    let small4Subjects :=
      subjects.filter (fun s => small4Keywords.any (fun kw => containsSub (lowerStr s) kw))
    let otherSubjects := subjects.filter (fun s => !small4Subjects.contains s)
    (subjects, small4Subjects, otherSubjects)

/-- Bracket characters stripped by `normalizeClassName` step 1. -/
def bracketChar (c : Char) : Bool :=
  c == '(' || c == ')' || c == '（' || c == '）' ||
  c == '[' || c == ']' || c == '【' || c == '】'

/-- Chinese numerals 一..六 (the `[一二三四五六]` class). -/
def cnDigit16 (c : Char) : Bool :=
  c == '一' || c == '二' || c == '三' || c == '四' || c == '五' || c == '六'

/-- Chinese numerals 一..十 (the `[一二三四五六七八九十]` class). -/
def cnDigit110 (c : Char) : Bool :=
  cnDigit16 c || c == '七' || c == '八' || c == '九' || c == '十'

/-- The `/班级?$/` removal: strip one trailing `班级` or `班`. -/
def stripClassSuffix (cs : List Char) : List Char :=
  if matchAt ['级', '班'] cs.reverse then cs.take (cs.length - 2)
  else if matchAt ['班'] cs.reverse then cs.take (cs.length - 1)
  else cs

/-- Grade pattern `/^(高|初|小)[一二三四五六]/`, stripped only when the
remainder is non-empty. -/
def gradeStrip1 (cs : List Char) : List Char :=
  match cs with
  | a :: b :: rest =>
    if (a == '高' || a == '初' || a == '小') && cnDigit16 b then
      if rest.isEmpty then a :: b :: rest else rest
    else a :: b :: rest
  | other => other

/-- Match of `/^[一二三四五六七八九十]+年级/`: a non-empty run of Chinese
numerals followed by `年级`; returns the remainder after the match. -/
def gp2Split (cs : List Char) : Option (List Char) :=
  let run := cs.takeWhile cnDigit110
  let rest := cs.dropWhile cnDigit110
  if run.isEmpty then none
  else
    match rest with
    | '年' :: '级' :: tail => some tail
    | _ => none

/-- Grade pattern `/^[一二三四五六七八九十]+年级/`, stripped only when the
remainder is non-empty. -/
def gradeStrip2 (cs : List Char) : List Char :=
  match gp2Split cs with
  | some tail => if tail.isEmpty then cs else tail
  | none => cs

/-- The string pipeline of `normalizeClassName` after the truthiness guard:
trim, strip brackets, strip whitespace, strip one trailing class suffix, strip
grade prefixes (each only if the remainder is non-empty). -/
def classNameCore (s : String) : String :=
  let t :=
    ((s.toList.dropWhile jsWhitespaceChar).reverse.dropWhile jsWhitespaceChar).reverse
  let t := t.filter (fun c => !bracketChar c)
  let t := t.filter (fun c => !jsWhitespaceChar c)
  let t := stripClassSuffix t
  let t := gradeStrip2 (gradeStrip1 t)
  String.mk t

/-- `normalizeClassName` (source lines 274-305). -/
def normalizeClassName (v : JSVal) : String :=
  if !truthy v then "未分类"
  else
    let core := classNameCore (jsToString v)
    if core == "" then "未分类" else core ++ "班"

/-- Delimiters stripped by `normalizeCombinationString`: `/[+,\s，、]/g`. -/
def comboDelim (c : Char) : Bool :=
  c == '+' || c == ',' || jsWhitespaceChar c || c == '，' || c == '、'

/-- JS `s.split('').sort().join('')` on BMP text: sort characters by code
point. -/
def sortCharsStr (s : String) : String :=
  String.mk (s.toList.mergeSort (fun a b => decide (a ≤ b)))

/-- `normalizeCombinationString` (source lines 438-447). -/
def normalizeCombinationString (s : String) : String :=
  if s == "" then "未知组合"
  else sortCharsStr (String.mk (s.toList.filter (fun c => !comboDelim c)))

/-- The `/(姓名|name|xm)/i` pattern of `mergeData`. -/
def namePatternTest (k : String) : Bool :=
  containsCI k "姓名" || containsCI k "name" || containsCI k "xm"

/-- The `/(班级|class|bj|bjmc)/i` pattern of `mergeData`. -/
def classPatternTest (k : String) : Bool :=
  containsCI k "班级" || containsCI k "class" || containsCI k "bj" || containsCI k "bjmc"

/-- The `/(年级|grade|nj)/i` pattern of `mergeData`. -/
def gradePatternTest (k : String) : Bool :=
  containsCI k "年级" || containsCI k "grade" || containsCI k "nj"

/-- JS object spread `{...base, ...extra}`: keys of `extra` override values in
place, new keys are appended in order. -/
def spreadOver (base : Record) (extra : Record) : Record :=
  extra.foldl (fun acc p => setVal acc p.1 p.2) base

/-- `mergeData` (source lines 243-272).  The `_raw` back-reference (a nested
object no downstream logic reads) is not representable in `JSVal` and is
omitted; every key pattern used later fails on the name `_raw`, so its absence
is unobservable in the modeled pipeline. -/
def mergeData (raw kb : List Record) (rawId : String) : List Record :=
  let kbId := if kb.isEmpty then "" else inferIdField kb
  let kbMap : List (String × Record) :=
    if kbId != "" then
      kb.foldl (fun m row => assocSet m (jsToStringOpt (getVal row kbId)) row) []
    else []
  raw.map (fun row =>
    let idVal := jsToStringOpt (getVal row rawId)
    let kbRow := ((kbMap.find? (fun p => p.1 == idVal)).map Prod.snd).getD []
    let combined := spreadOver row kbRow
    let keys := combined.map Prod.fst
    let nameKey := keys.find? namePatternTest
    let classKey := keys.find? classPatternTest
    let gradeKey := keys.find? gradePatternTest
    let nameV := orV (orV (getVal combined (nameKey.getD "")) (getVal row "姓名"))
      (some (.str idVal))
    let classV := orV (orV (getVal combined (classKey.getD "")) (getVal row "班级"))
      (some (.str "未分类"))
    let gradeV := orV (orV (getVal combined (gradeKey.getD "")) (getVal row "年级"))
      (some (.str "未分类"))
    let base : Record :=
      [("id", .str idVal),
       ("name", nameV.getD .nullV),
       ("class", .str (normalizeClassName (classV.getD .nullV))),
       ("grade", gradeV.getD .nullV)]
    spreadOver base row)

/-- The `/(总分|total|score_sum)/i` declared-total pattern. -/
def matchesTotalKey (k : String) : Bool :=
  containsCI k "总分" || containsCI k "total" || containsCI k "score_sum"

/-- The `calculatedTotal` sum over all subjects (`Number(row[s]) || 0`). -/
def calcTotalOf (subjects : List String) (row : Record) : ℚ :=
  subjects.foldl (fun acc s => acc + numOr0 row s) 0

/-- The raw-total reconciliation (source lines 467-474): use a declared total
field when one exists and agrees with the computed sum within 2; a NaN
declared value fails the comparison and is discarded. -/
def rawTotalOf (subjects : List String) (row : Record) : ℚ :=
  let c := calcTotalOf subjects row
  match (row.map Prod.fst).find? matchesTotalKey with
  | some k =>
    match jsNumField row k with
    | some pt => if |pt - c| ≤ 2 then pt else c
    | none => c
  | none => c

/-- Per-subject cohort statistics (source lines 454-459): `{min, max}` of
`Number(d[subj]) || 0` over the whole cohort, via `Math.min`/`Math.max`. -/
def qMin (l : List ℚ) : ℚ :=
  match l with
  | [] => 0
  | x :: xs => xs.foldl min x

/-- List maximum with the same shape as `qMin`. -/
def qMax (l : List ℚ) : ℚ :=
  match l with
  | [] => 0
  | x :: xs => xs.foldl max x

/-- The `stats[subj] = {min, max}` table, as a function from subject name. -/
def statsOf (data : List Record) (subj : String) : ℚ × ℚ :=
  (qMin (data.map (fun d => numOr0 d subj)), qMax (data.map (fun d => numOr0 d subj)))

/-- One rebased value (source lines 484-487): keep the raw value when
`max == min`, else `Math.round(40 + ((s - min) / (max - min)) * 60)`. -/
def assignedOf (stats : String → ℚ × ℚ) (r : Record) (subj : String) : ℚ :=
  let s := numOr0 r subj
  let mn := (stats subj).1
  let mx := (stats subj).2
  if mx ≠ mn then ((jsRound (40 + ((s - mn) / (mx - mn)) * 60) : ℤ) : ℚ) else s

/-- Per-record scoring (the body of the chunk loop, source lines 465-500):
sets `_rawTotal`, each `assigned_<subj>` and `_assignedTotal` on the row.
Reads go through the evolving row object exactly as in the source. -/
def scoreRow (subjects small4 : List String) (stats : String → ℚ × ℚ) (skip : Bool)
    (row : Record) : Record :=
  let rawTotal := rawTotalOf subjects row
  let r1 := setVal row "_rawTotal" (.num rawTotal)
  if skip then
    let r2 := small4.foldl
      (fun r subj => setVal r ("assigned_" ++ subj) (.num (numOr0 r subj))) r1
    setVal r2 "_assignedTotal" (.num rawTotal)
  else
    let rawSmall4Sum := small4.foldl (fun acc s => acc + numOr0 r1 s) 0
    let p := small4.foldl
      (fun (p : Record × ℚ) subj =>
        let a := assignedOf stats p.1 subj
        (setVal p.1 ("assigned_" ++ subj) (.num a), p.2 + a))
      (r1, rawTotal - rawSmall4Sum)
    setVal p.1 "_assignedTotal" (.num p.2)

/-- Fuel-driven chunk loop: `for (let i = 0; i < n; i += CHUNK_SIZE)` applied
to a per-element map; the fuel starts at the list length, which bounds the
number of iterations whenever the chunk size is positive. -/
def chunkGo {α : Type} (f : α → α) (c : ℕ) : ℕ → List α → List α
  | _, [] => []
  | 0, _ => []
  | fuel + 1, l => (l.take c).map f ++ chunkGo f c fuel (l.drop c)

/-- Chunked map over a list, modeling the batch loop of `processInChunks`
(the cooperative `setTimeout` yield between batches has no data effect). -/
def chunkProcess {α : Type} (f : α → α) (c : ℕ) (l : List α) : List α :=
  chunkGo f c l.length l

/-- The rank-walk of `calcRanks` (source lines 531-537) over an abstract
element type: `i` is the 0-based index of the next element, `rank` the rank of
the previous element and `prev` its metric value. -/
def rankGo {α : Type} (get : α → ℚ) (set : α → ℕ → α) :
    ℕ → ℕ → ℚ → List α → List α
  | _, _, _, [] => []
  | i, rank, prev, x :: rest =>
    let v := get x
    let rank' := if v < prev then i + 1 else rank
    set x rank' :: rankGo get set (i + 1) rank' v rest

/-- `calcRanks` over an abstract element type: stable descending sort by the
metric, then the competition-rank walk. -/
def rankAll {α : Type} (get : α → ℚ) (set : α → ℕ → α) (data : List α) : List α :=
  let sorted := data.mergeSort (fun a b => decide (get b ≤ get a))
  match sorted with
  | [] => []
  | x :: rest => set x 1 :: rankGo get set 1 1 (get x) rest

/-- `calcRanks` (source lines 529-538) on plain rows. -/
def calcRanks (key rankKey : String) (data : List Record) : List Record :=
  rankAll (fun r => numOr0 r key) (fun r n => setVal r rankKey (.num n)) data

/-- `calcRanks` on position-indexed rows; the index models JS object identity
so that in-place mutation of rows shared between arrays can be merged back. -/
def calcRanksIx (key rankKey : String) (data : List (ℕ × Record)) : List (ℕ × Record) :=
  rankAll (fun p => numOr0 p.2 key) (fun p n => (p.1, setVal p.2 rankKey (.num n))) data

/-- The cohort-wide rank passes of `processInChunks` (source lines 504-509), as
an ordered list of (metric key, rank key) pairs. -/
def yearRankPairs (subjects small4 : List String) : List (String × String) :=
  ("_rawTotal", "yearRank_raw") :: ("_assignedTotal", "yearRank_assigned") ::
    subjects.foldr (fun s acc =>
      (s, "yearRank_" ++ s) ::
        ((if small4.contains s then [("assigned_" ++ s, "yearRank_assigned_" ++ s)] else []) ++ acc))
      []

/-- The per-class rank passes of `processInChunks` (source lines 518-523). -/
def classRankPairs (subjects small4 : List String) : List (String × String) :=
  ("_rawTotal", "classRank_raw") :: ("_assignedTotal", "classRank_assigned") ::
    subjects.foldr (fun s acc =>
      (s, "classRank_" ++ s) ::
        ((if small4.contains s then [("assigned_" ++ s, "classRank_assigned_" ++ s)] else []) ++ acc))
      []

/-- Sequential rank passes on plain rows (each `calcRanks` call re-sorts the
shared array, exactly as in the source). -/
def runRanks (pairs : List (String × String)) (l : List Record) : List Record :=
  pairs.foldl (fun acc p => calcRanks p.1 p.2 acc) l

/-- Sequential rank passes on indexed rows. -/
def runRanksIx (pairs : List (String × String)) (l : List (ℕ × Record)) :
    List (ℕ × Record) :=
  pairs.foldl (fun acc p => calcRanksIx p.1 p.2 acc) l

/-- The object key `String(r.class)` used by the `byClass` grouping. -/
def classKeyOf (r : Record) : String := jsToStringOpt (getVal r "class")

/-- Append an element to the group for key `c`, creating the group at the end
on first sight (JS object string keys keep insertion order). -/
def addToGroup {α : Type} :
    List (String × List α) → String → α → List (String × List α)
  | [], c, x => [(c, [x])]
  | (c', g) :: rest, c, x =>
    if c' == c then (c', g ++ [x]) :: rest else (c', g) :: addToGroup rest c x

/-- The `byClass` grouping (source lines 511-515) over indexed rows. -/
def groupByClassIx (l : List (ℕ × Record)) : List (String × List (ℕ × Record)) :=
  l.foldl (fun acc p => addToGroup acc (classKeyOf p.2) p) []

/-- The per-class rank stage (source lines 511-524): group rows by class, run
the class rank passes inside each group, and merge the mutated rows back into
their original positions (by the identity index). -/
def classPass (subjects small4 : List String) (l : List Record) : List Record :=
  let withIx := l.enum
  let groups := groupByClassIx withIx
  let ranked := groups.map (fun p => runRanksIx (classRankPairs subjects small4) p.2)
  ((ranked.flatten).mergeSort (fun a b => decide (a.1 ≤ b.1))).map Prod.snd

/-- `processInChunks` (source lines 449-527): cohort statistics, chunked
per-record scoring, cohort rank passes, then per-class rank passes.  The chunk
size is a parameter (the source fixes it at 5000) so that batch-size
independence can be stated. -/
def processInChunks (chunkSize : ℕ) (data : List Record)
    (subjects small4 : List String) (skip : Bool) : List Record :=
  let stats := statsOf data
  let scored := chunkProcess (scoreRow subjects small4 stats skip) chunkSize data
  let afterYear := runRanks (yearRankPairs subjects small4) scored
  classPass subjects small4 afterYear

/-- The `/(选科|组合|subjects|combination)/i` elective-label pattern. -/
def combinationKeyPattern (k : String) : Bool :=
  containsCI k "选科" || containsCI k "组合" ||
  containsCI k "subjects" || containsCI k "combination"

/-- The `comboKeywords` of `inferCombinations` (source line 315). -/
def comboKeywords : List String :=
  ["政治", "地理", "化学", "生物", "物理", "历史",
   "politics", "geography", "chemistry", "biology", "physics", "history"]

/-- The `subjectMap` of `inferCombinations` (source lines 319-326), in
insertion order, mapping subject-name keywords to single-letter codes. -/
def subjectMapL : List (String × Char) :=
  [("物理", '物'), ("physics", '物'),
   ("历史", '史'), ("history", '史'),
   ("化学", '化'), ("chemistry", '化'),
   ("生物", '生'), ("biology", '生'),
   ("政治", '政'), ("politics", '政'),
   ("地理", '地'), ("geography", '地')]

/-- For a subject name, the first `subjectMap` keyword it contains (the
`Object.keys(subjectMap).find` of source line 354), mapped to its code. -/
def mappedCharOf (s : String) : Option Char :=
  (subjectMapL.find? (fun p => containsSub (lowerStr s) p.1)).map Prod.snd

/-- Resolve one combination code to the first candidate subject whose mapped
code equals it (source lines 351-357). -/
def resolveRequired (potential : List String) (c : Char) : Option String :=
  potential.find? (fun s =>
    match mappedCharOf s with
    | some mc => mc == c
    | none => false)

/-- Strategy 1 of `inferCombinations` (source lines 331-342): when the
explicit elective-label field is present and truthy, every allowed combination
whose sorted code string equals the canonicalized label. -/
def explicitCombosOf (explicitKey : Option String) (allowed : List String)
    (row : Record) : List String :=
  match explicitKey with
  | some k =>
    match getVal row k with
    | some v =>
      if truthy v then
        let ev := normalizeCombinationString (jsToString v)
        allowed.filter (fun a => ev == sortCharsStr a)
      else []
    | none => []
  | none => []

/-- Strategy 2 test of `inferCombinations` (source lines 347-368) for one
combination: every code resolves to a candidate subject field and the record's
value at each resolved field is a number strictly greater than 0. -/
def inferredComboOk (potential : List String) (row : Record) (a : String) : Bool :=
  let req := a.toList.map (resolveRequired potential)
  req.all Option.isSome &&
    req.all (fun o =>
      match o with
      | some kk =>
        match jsNumField row kk with
        | some q => decide (0 < q)
        | none => false
      | none => false)

/-- Per-record combination matching (source lines 328-374): explicit-label
strategy first; the score-presence strategy only when it matched nothing. -/
def inferRowCombos (explicitKey : Option String) (potential allowed : List String)
    (row : Record) : List String :=
  let explicitMatches := explicitCombosOf explicitKey allowed row
  if explicitMatches.isEmpty then allowed.filter (inferredComboOk potential row)
  else explicitMatches

/-- `inferCombinations` (source lines 307-375): writes `_combinations` on
every row.  The source reads `data[0]` unguarded; it is only called on
non-empty data, and the empty case maps over nothing here. -/
def inferCombinations (data : List Record) (subjects allowed : List String) :
    List Record :=
  match data with
  | [] => []
  | first :: _ =>
    let keys := first.map Prod.fst
    let explicitKey := keys.find? combinationKeyPattern
    let potential :=
      subjects.filter (fun s => comboKeywords.any (fun kw => containsSub (lowerStr s) kw))
    data.map (fun row =>
      setVal row "_combinations" (.strList (inferRowCombos explicitKey potential allowed row)))

/-- The `d._combinations && d._combinations.includes(combo)` test. -/
def hasCombo (r : Record) (combo : String) : Bool :=
  match getVal r "_combinations" with
  | some (.strList l) => l.contains combo
  | _ => false

/-- Merge mutated shared rows back into the main list by identity index. -/
def applyUpdates (l upds : List (ℕ × Record)) : List (ℕ × Record) :=
  l.map (fun p => ((upds.find? (fun q => q.1 == p.1)).getD p))

/-- `calcCombinationRanks` (source lines 377-436): cohort-wide then per-class
combination rank passes, each filtering the shared rows by membership,
ranking the filtered copy, and mutating the shared rows (modeled by merging
updates back by identity index). -/
def calcCombinationRanks (data : List Record) (allowed : List String) : List Record :=
  let ix := data.enum
  let afterGrade := allowed.foldl (fun (cur : List (ℕ × Record)) combo =>
    let comboStudents := cur.filter (fun p => hasCombo p.2 combo)
    let s1 := calcRanksIx "_rawTotal" ("gradeRank_combo_" ++ combo ++ "_raw") comboStudents
    let s2 := calcRanksIx "_assignedTotal" ("gradeRank_combo_" ++ combo ++ "_assigned") s1
    applyUpdates cur s2) ix
  let groups := groupByClassIx afterGrade
  let rankedGroups := groups.map (fun p =>
    allowed.foldl (fun (g : List (ℕ × Record)) combo =>
      let cs := g.filter (fun q => hasCombo q.2 combo)
      let t1 := calcRanksIx "_rawTotal" ("classRank_combo_" ++ combo ++ "_raw") cs
      let t2 := calcRanksIx "_assignedTotal" ("classRank_combo_" ++ combo ++ "_assigned") t1
      applyUpdates g t2) p.2)
  ((rankedGroups.flatten).mergeSort (fun a b => decide (a.1 ≤ b.1))).map Prod.snd

/-- The fixed `allowedCombinations` list (source line 110). -/
def allowedCombinationsL : List String := ["物化生", "物化地", "物化政", "政史地"]

/-- The raw input as the pipeline receives it from `JSON.parse`: either an
array of records or some non-array JSON value. -/
inductive RawInput where
  | arr (records : List Record)
  | notArr
  deriving DecidableEq

/-- The single fatal, typed failure of the core (source lines 74-76). -/
inductive PipeError where
  | invalidInput
  deriving DecidableEq

/-- The processing stages of `process` after input validation (source lines
90-115): identity inference, merge, subject classification, chunked scoring
and ranking, combination inference, combination ranks. -/
def pipelineBody (rawData kbData : List Record) : List Record :=
  let idField := inferIdField rawData
  let mergedData := mergeData rawData kbData idField
  let cls := identifySubjects mergedData idField
  let subjects := cls.1
  let small4 := cls.2.1
  let processedData := processInChunks 5000 mergedData subjects small4 false
  let withCombos := inferCombinations processedData subjects allowedCombinationsL
  calcCombinationRanks withCombos allowedCombinationsL

/-- The data-processing core of `process` (source lines 72-115): reject an
input that is not a non-empty array before any inference, else run the whole
pipeline. -/
def runPipeline (input : RawInput) (kbData : List Record) :
    Except PipeError (List Record) :=
  match input with
  | .notArr => .error .invalidInput
  | .arr [] => .error .invalidInput
  | .arr (r :: rest) => .ok (pipelineBody (r :: rest) kbData)

/-- Modelled from the spec (section 4.1, identity-field selection): the
uniqueness fallback as the spec words it, requiring the field's value to be
present and type-homogeneous (string or number) across every record and the
value set to have cardinality equal to the record count.  Used only to compare
the spec's description against `inferIdField`. -/
def specUniqueFieldOk (data : List Record) (key : String) : Bool :=
  let values := data.map (fun item => getVal item key)
  (values.all (fun v =>
      match v with
      | some (.num _) => true
      | _ => false) ||
   values.all (fun v =>
      match v with
      | some (.str _) => true
      | _ => false)) &&
  values.dedup.length == data.length

/-- Modelled from the spec (section 4.1): identity-field selection as
described — name patterns first, then the first field passing
`specUniqueFieldOk`, then the first field name. -/
def specIdFieldSel (data : List Record) : String :=
  match data with
  | [] => ""
  | first :: _ =>
    let keys := first.map Prod.fst
    match firstPatternHit idPatterns keys with
    | some k => k
    | none =>
      match keys.find? (fun key => specUniqueFieldOk data key) with
      | some k => k
      | none => keys.headD ""



/-- Value-level shadow of the `calcRanks` walk: the sequence of ranks assigned
along a list of metric values, with the same state (`i`, `rank`, `prev`) as
`rankGo`. -/
def rankVals : ℕ → ℕ → ℚ → List ℚ → List ℕ
  | _, _, _, [] => []
  | i, rank, prev, v :: rest =>
    let rank' := if v < prev then i + 1 else rank
    rank' :: rankVals (i + 1) rank' v rest


/-- Lookup of a class group by key in the `byClass` accumulator. -/
def groupOf {α : Type} (acc : List (String × List α)) (c : String) : List α :=
  ((acc.find? (fun p => p.1 == c)).map Prod.snd).getD []

theorem getVal_cons (k₀ k : String) (v₀ : JSVal) (rest : Record) :
    getVal ((k₀, v₀) :: rest) k = if k₀ = k then some v₀ else getVal rest k := by
  by_cases h : k₀ = k
  · simp [getVal, List.find?_cons_of_pos, h]
  · simp only [getVal]
    rw [List.find?_cons_of_neg]
    · simp [h]
    · simpa using h

theorem setVal_cons (k₀ k : String) (v₀ v : JSVal) (rest : Record) :
    setVal ((k₀, v₀) :: rest) k v =
      if k₀ = k then (k, v) :: rest else (k₀, v₀) :: setVal rest k v := by
  by_cases h : k₀ = k <;> simp [setVal, assocSet, h]

theorem getVal_setVal_self (r : Record) (k : String) (v : JSVal) :
    getVal (setVal r k v) k = some v := by
  induction r with
  | nil => simp [setVal, assocSet, getVal]
  | cons p rest ih =>
    obtain ⟨k₀, v₀⟩ := p
    rw [setVal_cons]
    by_cases h : k₀ = k
    · simp [h, getVal_cons]
    · rw [if_neg h, getVal_cons, if_neg h]
      exact ih

theorem getVal_setVal_ne (r : Record) (k k' : String) (v : JSVal) (h : k ≠ k') :
    getVal (setVal r k v) k' = getVal r k' := by
  induction r with
  | nil =>
    have hb : (k == k') = false := by simpa using h
    simp [setVal, assocSet, getVal, List.find?, hb]
  | cons p rest ih =>
    obtain ⟨k₀, v₀⟩ := p
    rw [setVal_cons]
    by_cases h₀ : k₀ = k
    · subst h₀
      rw [if_pos rfl, getVal_cons, getVal_cons, if_neg h, if_neg h]
    · rw [if_neg h₀, getVal_cons, getVal_cons]
      by_cases h₁ : k₀ = k'
      · simp [h₁]
      · rw [if_neg h₁, if_neg h₁]
        exact ih

theorem keys_setVal_of_mem (r : Record) (k : String) (v : JSVal)
    (h : k ∈ r.map Prod.fst) : (setVal r k v).map Prod.fst = r.map Prod.fst := by
  induction r with
  | nil => simp at h
  | cons p rest ih =>
    obtain ⟨k₀, v₀⟩ := p
    rw [setVal_cons]
    by_cases h₀ : k₀ = k
    · simp [h₀]
    · rw [if_neg h₀]
      simp only [List.map_cons, List.mem_cons] at h
      rcases h with h | h
      · exact absurd h.symm h₀
      · simp only [List.map_cons]
        exact congrArg (k₀ :: ·) (ih h)

theorem keys_setVal_of_not_mem (r : Record) (k : String) (v : JSVal)
    (h : k ∉ r.map Prod.fst) :
    (setVal r k v).map Prod.fst = r.map Prod.fst ++ [k] := by
  induction r with
  | nil => simp [setVal, assocSet]
  | cons p rest ih =>
    obtain ⟨k₀, v₀⟩ := p
    simp only [List.map_cons, List.mem_cons] at h
    push_neg at h
    rw [setVal_cons, if_neg (fun hh => h.1 hh.symm)]
    simp only [List.map_cons, List.cons_append]
    exact congrArg (k₀ :: ·) (ih h.2)

theorem mem_keys_setVal_self (r : Record) (k : String) (v : JSVal) :
    k ∈ (setVal r k v).map Prod.fst := by
  by_cases h : k ∈ r.map Prod.fst
  · rw [keys_setVal_of_mem r k v h]; exact h
  · rw [keys_setVal_of_not_mem r k v h]; simp

theorem mem_keys_setVal_of_mem (r : Record) (k k' : String) (v : JSVal)
    (h : k' ∈ r.map Prod.fst) : k' ∈ (setVal r k v).map Prod.fst := by
  by_cases hk : k ∈ r.map Prod.fst
  · rwa [keys_setVal_of_mem r k v hk]
  · rw [keys_setVal_of_not_mem r k v hk]; exact List.mem_append_left _ h

theorem nodup_keys_setVal (r : Record) (k : String) (v : JSVal)
    (h : (r.map Prod.fst).Nodup) : ((setVal r k v).map Prod.fst).Nodup := by
  by_cases hk : k ∈ r.map Prod.fst
  · rwa [keys_setVal_of_mem r k v hk]
  · rw [keys_setVal_of_not_mem r k v hk]
    exact List.Nodup.append h (List.nodup_singleton k)
      (by simpa [List.disjoint_singleton] using hk)

theorem gradeStrip1_ne_nil (cs : List Char) (h : cs ≠ []) : gradeStrip1 cs ≠ [] := by
  match cs with
  | [] => exact absurd rfl h
  | [a] => simp [gradeStrip1]
  | a :: b :: rest =>
    simp only [gradeStrip1]
    split
    · split
      · simp
      · simp_all
    · simp

theorem gradeStrip2_ne_nil (cs : List Char) (h : cs ≠ []) : gradeStrip2 cs ≠ [] := by
  unfold gradeStrip2
  cases hg : gp2Split cs with
  | none => simpa using h
  | some tail =>
    by_cases ht : tail.isEmpty
    · simpa [ht] using h
    · simp only [ht, if_false]
      simpa using ht

theorem append_ban_ne_empty (s : String) : s ++ "班" ≠ "" := by
  intro h
  have hd := congrArg String.data h
  rw [String.data_append] at hd
  simp at hd

theorem append_ban_getLast (s : String) :
    (s ++ "班").data.getLast? = some '班' := by
  rw [String.data_append]
  have : "班".data = ['班'] := rfl
  rw [this]
  exact List.getLast?_concat _

theorem append_ban_ne_sentinel (s : String) : s ++ "班" ≠ "未分类" := by
  intro h
  have hd : (s ++ "班").data.getLast? = ("未分类" : String).data.getLast? := by rw [h]
  rw [append_ban_getLast] at hd
  have : ("未分类" : String).data.getLast? = some '类' := rfl
  rw [this] at hd
  simp at hd

/-- Claim C10: for every input value, `normalizeClassName` returns a non-empty
string that is either exactly the sentinel `未分类` — returned precisely when
the input is falsy (empty/unset) or when the stripping pipeline leaves no
text — or a string ending in the canonical suffix `班`; and the grade-prefix
strippers never turn non-empty text into empty text (they strip only when the
remainder is non-empty). -/
theorem claim_C10_normalize_class_name (v : JSVal) (cs : List Char) (hcs : cs ≠ []) :
    normalizeClassName v ≠ "" ∧
    (normalizeClassName v = "未分类" ↔
      (truthy v = false ∨ classNameCore (jsToString v) = "")) ∧
    (normalizeClassName v ≠ "未分类" →
      (normalizeClassName v).data.getLast? = some '班') ∧
    gradeStrip1 cs ≠ [] ∧ gradeStrip2 cs ≠ [] := by
  refine ⟨?_, ?_, ?_, gradeStrip1_ne_nil cs hcs, gradeStrip2_ne_nil cs hcs⟩
  · unfold normalizeClassName
    by_cases ht : truthy v
    · simp only [ht, Bool.not_true, if_false]
      by_cases hc : classNameCore (jsToString v) == ""
      · simp [hc]
      · simp only [hc, if_false]
        exact append_ban_ne_empty _
    · simp only [Bool.not_eq_true] at ht
      simp [ht]
  · unfold normalizeClassName
    by_cases ht : truthy v
    · simp only [ht, Bool.not_true, if_false]
      by_cases hc : classNameCore (jsToString v) = ""
      · simp [hc, ht]
      · have hc' : (classNameCore (jsToString v) == "") = false := by simpa using hc
        simp only [hc', if_false]
        constructor
        · intro h; exact absurd h (append_ban_ne_sentinel _)
        · intro h
          rcases h with h | h
          · simp [ht] at h
          · exact absurd h hc
    · simp only [Bool.not_eq_true] at ht
      simp [ht]
  · unfold normalizeClassName
    by_cases ht : truthy v
    · simp only [ht, Bool.not_true, if_false]
      by_cases hc : classNameCore (jsToString v) == ""
      · simp [hc]
      · simp only [hc, if_false]
        intro _
        exact append_ban_getLast _
    · simp only [Bool.not_eq_true] at ht
      simp [ht]

/-- Witness for C10 at a concrete bracketed, grade-prefixed class name. -/
theorem claim_C10_witness :
    normalizeClassName (.str "高一(3)班") ≠ "" ∧
    (normalizeClassName (.str "高一(3)班") = "未分类" ↔
      (truthy (.str "高一(3)班") = false ∨
        classNameCore (jsToString (.str "高一(3)班")) = "")) ∧
    (normalizeClassName (.str "高一(3)班") ≠ "未分类" →
      (normalizeClassName (.str "高一(3)班")).data.getLast? = some '班') ∧
    gradeStrip1 ['三'] ≠ [] ∧ gradeStrip2 ['三'] ≠ [] :=
  claim_C10_normalize_class_name (.str "高一(3)班") ['三'] (by decide)

theorem strne_of_first (pre s t : String) (a b : Char)
    (h1 : pre.data.head? = some a) (h2 : t.data.head? = some b) (hne : a ≠ b) :
    pre ++ s ≠ t := by
  intro h
  have hd : (pre ++ s).data.head? = t.data.head? := by rw [h]
  rw [String.data_append, List.head?_append, h1] at hd
  rw [h2] at hd
  exact hne (Option.some.inj hd)

theorem str_append_left_cancel {pre s t : String} (h : pre ++ s = pre ++ t) : s = t := by
  have hd := congrArg String.data h
  rw [String.data_append, String.data_append] at hd
  exact String.ext (List.append_cancel_left hd)

theorem assigned_ne_rawTotal (s : String) : ("assigned_" ++ s) ≠ "_rawTotal" :=
  strne_of_first _ s _ 'a' '_' rfl rfl (by decide)

theorem assigned_ne_assignedTotal (s : String) : ("assigned_" ++ s) ≠ "_assignedTotal" :=
  strne_of_first _ s _ 'a' '_' rfl rfl (by decide)

theorem foldA_getVal_preserved (stats : String → ℚ × ℚ) (l : List String)
    (r : Record) (acc : ℚ) (t : String) (ht : ∀ s : String, ("assigned_" ++ s) ≠ t) :
    getVal (l.foldl (fun (p : Record × ℚ) subj =>
      let a := assignedOf stats p.1 subj
      (setVal p.1 ("assigned_" ++ subj) (.num a), p.2 + a)) (r, acc)).1 t = getVal r t := by
  induction l generalizing r acc with
  | nil => rfl
  | cons s rest ih =>
    simp only [List.foldl_cons]
    rw [ih]
    exact getVal_setVal_ne r _ t _ (ht s)

theorem foldS_getVal_preserved (l : List String) (r : Record) (t : String)
    (ht : ∀ s : String, ("assigned_" ++ s) ≠ t) :
    getVal (l.foldl
      (fun r subj => setVal r ("assigned_" ++ subj) (.num (numOr0 r subj))) r) t =
      getVal r t := by
  induction l generalizing r with
  | nil => rfl
  | cons s rest ih =>
    simp only [List.foldl_cons]
    rw [ih]
    exact getVal_setVal_ne r _ t _ (ht s)

theorem scoreRow_getVal_rawTotal (subjects small4 : List String)
    (stats : String → ℚ × ℚ) (skip : Bool) (row : Record) :
    getVal (scoreRow subjects small4 stats skip row) "_rawTotal" =
      some (.num (rawTotalOf subjects row)) := by
  unfold scoreRow
  cases skip with
  | true =>
    rw [if_pos rfl]
    rw [getVal_setVal_ne _ _ _ _ (by decide)]
    rw [foldS_getVal_preserved _ _ _ assigned_ne_rawTotal]
    exact getVal_setVal_self _ _ _
  | false =>
    rw [if_neg (by simp)]
    rw [getVal_setVal_ne _ _ _ _ (by decide)]
    rw [foldA_getVal_preserved _ _ _ _ _ assigned_ne_rawTotal]
    exact getVal_setVal_self _ _ _

/-- Claim C6: for every record, `rawTotal` equals the declared total exactly
when a field matching the declared-total pattern exists and its numeric value
is within 2 of the computed subject sum; in every other case (no such field, a
NaN declared value, or a difference above the tolerance) the declared value is
silently discarded and `rawTotal` is the computed sum; the stored `_rawTotal`
always carries this value and no error is raised. -/
theorem claim_C6_declared_total_tolerance (subjects small4 : List String)
    (stats : String → ℚ × ℚ) (skip : Bool) (row : Record) (k : String) (pt : ℚ) :
    ((row.map Prod.fst).find? matchesTotalKey = some k →
      jsNumField row k = some pt →
      ((|pt - calcTotalOf subjects row| ≤ 2 → rawTotalOf subjects row = pt) ∧
       (¬ |pt - calcTotalOf subjects row| ≤ 2 →
          rawTotalOf subjects row = calcTotalOf subjects row ∧
          rawTotalOf subjects row ≠ pt))) ∧
    ((row.map Prod.fst).find? matchesTotalKey = some k →
      jsNumField row k = none → rawTotalOf subjects row = calcTotalOf subjects row) ∧
    ((row.map Prod.fst).find? matchesTotalKey = none →
      rawTotalOf subjects row = calcTotalOf subjects row) ∧
    getVal (scoreRow subjects small4 stats skip row) "_rawTotal" =
      some (.num (rawTotalOf subjects row)) := by
  refine ⟨?_, ?_, ?_, scoreRow_getVal_rawTotal subjects small4 stats skip row⟩
  · intro hfind hnum
    constructor
    · intro htol
      simp only [rawTotalOf, hfind, hnum]
      rw [if_pos htol]
    · intro htol
      have hne : pt ≠ calcTotalOf subjects row := by
        intro he
        apply htol
        rw [he]
        simp
      constructor
      · simp only [rawTotalOf, hfind, hnum]
        rw [if_neg htol]
      · simp only [rawTotalOf, hfind, hnum]
        rw [if_neg htol]
        exact fun he => hne he.symm
  · intro hfind hnum
    simp only [rawTotalOf, hfind, hnum]
  · intro hfind
    simp only [rawTotalOf, hfind]

/-- Witness for C6: a declared total of 99 against a computed sum of 98 is
within tolerance and is adopted; a declared total of 200 is discarded. -/
theorem claim_C6_witness :
    rawTotalOf ["a", "b"] [("总分", .num 99), ("a", .num 50), ("b", .num 48)] = 99 ∧
    rawTotalOf ["a", "b"] [("总分", .num 200), ("a", .num 50), ("b", .num 48)] = 98 := by
  have hcalc : calcTotalOf ["a", "b"]
      [("总分", .num 99), ("a", .num 50), ("b", .num 48)] = 98 := by
    have ha : numOr0 [("总分", .num 99), ("a", .num 50), ("b", .num 48)] "a" = 50 := rfl
    have hb : numOr0 [("总分", .num 99), ("a", .num 50), ("b", .num 48)] "b" = 48 := rfl
    norm_num [calcTotalOf, List.foldl_cons, List.foldl_nil, ha, hb]
  have hcalc2 : calcTotalOf ["a", "b"]
      [("总分", .num 200), ("a", .num 50), ("b", .num 48)] = 98 := by
    have ha : numOr0 [("总分", .num 200), ("a", .num 50), ("b", .num 48)] "a" = 50 := rfl
    have hb : numOr0 [("总分", .num 200), ("a", .num 50), ("b", .num 48)] "b" = 48 := rfl
    norm_num [calcTotalOf, List.foldl_cons, List.foldl_nil, ha, hb]
  constructor
  · have h := (claim_C6_declared_total_tolerance ["a", "b"] [] (fun _ => (0, 0)) false
      [("总分", .num 99), ("a", .num 50), ("b", .num 48)] "总分" 99).1
    exact (h (by decide) (by decide)).1 (by rw [hcalc]; norm_num)
  · have h := (claim_C6_declared_total_tolerance ["a", "b"] [] (fun _ => (0, 0)) false
      [("总分", .num 200), ("a", .num 50), ("b", .num 48)] "总分" 200).1
    have h2 := ((h (by decide) (by decide)).2 (by rw [hcalc2]; norm_num)).1
    rw [h2, hcalc2]

/-- Claim C9: an input that is empty or not a list makes the pipeline fail
with its fatal typed error before any processing stage runs, and for every
non-empty list input that error is not raised (the pipeline returns a
result). -/
theorem claim_C9_input_validation (input : RawInput) (kbData : List Record)
    (l : List Record) (hl : l ≠ []) :
    (runPipeline input kbData = .error .invalidInput ↔
      (input = .notArr ∨ input = .arr [])) ∧
    ∃ out, runPipeline (.arr l) kbData = .ok out := by
  constructor
  · cases input with
    | notArr => simp [runPipeline]
    | arr records =>
      cases records with
      | nil => simp [runPipeline]
      | cons r rest => simp [runPipeline]
  · cases l with
    | nil => exact absurd rfl hl
    | cons r rest => exact ⟨_, rfl⟩

/-- Witness for C9 at a one-record input. -/
theorem claim_C9_witness :
    (runPipeline (.arr [[("id", .num 1)]]) [] = .error .invalidInput ↔
      ((.arr [[("id", .num 1)]] : RawInput) = .notArr ∨
        (.arr [[("id", .num 1)]] : RawInput) = .arr [])) ∧
    ∃ out, runPipeline (.arr [[("id", .num 1)]]) [] = .ok out :=
  claim_C9_input_validation (.arr [[("id", .num 1)]]) [] [[("id", .num 1)]] (by decide)

/-- Claim C5: the score-presence (inferred) strategy runs only when the
explicit-label strategy produced no match for the record; when it runs, a
combination is added exactly when every one of its codes resolves to a
candidate subject field and the record's value at each resolved field is a
strictly positive number; a record may thus end with zero, one or several
combinations and no error is raised for zero matches. -/
theorem claim_C5_combination_inference (explicitKey : Option String)
    (potential allowed : List String) (row : Record) (a : String) :
    (explicitCombosOf explicitKey allowed row ≠ [] →
      inferRowCombos explicitKey potential allowed row =
        explicitCombosOf explicitKey allowed row) ∧
    (explicitCombosOf explicitKey allowed row = [] →
      inferRowCombos explicitKey potential allowed row =
        allowed.filter (inferredComboOk potential row) ∧
      (a ∈ inferRowCombos explicitKey potential allowed row ↔
        a ∈ allowed ∧
          ∀ c ∈ a.toList, ∃ kk, resolveRequired potential c = some kk ∧
            ∃ q, jsNumField row kk = some q ∧ 0 < q)) := by
  constructor
  · intro hne
    have : (explicitCombosOf explicitKey allowed row).isEmpty = false := by
      simpa [List.isEmpty_iff] using hne
    simp [inferRowCombos, this]
  · intro hempty
    have h0 : (explicitCombosOf explicitKey allowed row).isEmpty = true := by
      simp [List.isEmpty_iff, hempty]
    have heq : inferRowCombos explicitKey potential allowed row =
        allowed.filter (inferredComboOk potential row) := by
      simp [inferRowCombos, h0]
    refine ⟨heq, ?_⟩
    rw [heq, List.mem_filter]
    constructor
    · rintro ⟨hmem, hok⟩
      refine ⟨hmem, ?_⟩
      intro c hc
      simp only [inferredComboOk, Bool.and_eq_true, List.all_eq_true] at hok
      obtain ⟨hsome, hpos⟩ := hok
      have hmemreq : resolveRequired potential c ∈
          a.toList.map (resolveRequired potential) :=
        List.mem_map_of_mem _ hc
      have h1 := hsome _ hmemreq
      have h2 := hpos _ hmemreq
      cases hr : resolveRequired potential c with
      | none => rw [hr] at h1; simp at h1
      | some kk =>
        refine ⟨kk, rfl, ?_⟩
        rw [hr] at h2
        have h2' : (match jsNumField row kk with
          | some q => decide (0 < q)
          | none => false) = true := h2
        cases hjs : jsNumField row kk with
        | none => rw [hjs] at h2'; simp at h2'
        | some q =>
          rw [hjs] at h2'
          simp only [decide_eq_true_eq] at h2'
          exact ⟨q, rfl, h2'⟩
    · rintro ⟨hmem, hall⟩
      refine ⟨hmem, ?_⟩
      simp only [inferredComboOk, Bool.and_eq_true, List.all_eq_true]
      constructor
      · intro o ho
        obtain ⟨c, hc, rfl⟩ := List.mem_map.mp ho
        obtain ⟨kk, hkk, _⟩ := hall c hc
        simp [hkk]
      · intro o ho
        obtain ⟨c, hc, rfl⟩ := List.mem_map.mp ho
        obtain ⟨kk, hkk, q, hq, hpos⟩ := hall c hc
        rw [hkk]
        show (match jsNumField row kk with
          | some q => decide (0 < q)
          | none => false) = true
        rw [hq]
        simpa using hpos

/-- Witness for C5: a record with positive physics, chemistry, biology and
geography scores and no explicit label satisfies both 物化生 and 物化地, and
receives both. -/
theorem claim_C5_witness :
    inferRowCombos none ["物理", "化学", "生物", "地理"] allowedCombinationsL
      [("物理", .num 80), ("化学", .num 70), ("生物", .num 60), ("地理", .num 50)] =
      ["物化生", "物化地"] := by
  have h := (claim_C5_combination_inference none ["物理", "化学", "生物", "地理"]
    allowedCombinationsL
    [("物理", .num 80), ("化学", .num 70), ("生物", .num 60), ("地理", .num 50)]
    "物化生").2 rfl
  rw [h.1]
  decide

/-- Counterexample to C4 as stated: on a two-record collection whose field
`y` holds a number in the first record and a string in the second (so it is
not type-homogeneous across every record), no name pattern matches, and the
code still returns `y` because it checks only the first record's value type,
while the spec's described procedure rejects `y` and falls back to the first
field `x`. -/
theorem claim_C4_counterexample :
    inferIdField [[("x", .num 1), ("y", .num 1)], [("x", .num 1), ("y", .str "a")]] = "y" ∧
    specIdFieldSel [[("x", .num 1), ("y", .num 1)], [("x", .num 1), ("y", .str "a")]] = "x" ∧
    inferIdField [[("x", .num 1), ("y", .num 1)], [("x", .num 1), ("y", .str "a")]] ≠
      specIdFieldSel [[("x", .num 1), ("y", .num 1)], [("x", .num 1), ("y", .str "a")]] := by
  refine ⟨by decide, by decide, by decide⟩

/-- Claim C4 (amended): identity-field selection tries the fixed ordered
pattern list first and returns the first match; if none match, it returns the
first field in schema order whose value set over all records has cardinality
equal to the record count and whose value in the FIRST record is a string or a
number (presence and type homogeneity in later records are not checked); if
still none qualifies, it returns the first field name in schema order. -/
theorem claim_C4_amended_id_field_selection (first : Record) (rest : List Record)
    (k : String) :
    (firstPatternHit idPatterns (first.map Prod.fst) = some k →
      inferIdField (first :: rest) = k) ∧
    (firstPatternHit idPatterns (first.map Prod.fst) = none →
      (first.map Prod.fst).find? (codeUniqueFieldOk (first :: rest)) = some k →
      inferIdField (first :: rest) = k ∧
        codeUniqueFieldOk (first :: rest) k = true ∧ k ∈ first.map Prod.fst) ∧
    (firstPatternHit idPatterns (first.map Prod.fst) = none →
      (first.map Prod.fst).find? (codeUniqueFieldOk (first :: rest)) = none →
      inferIdField (first :: rest) = (first.map Prod.fst).headD "") := by
  refine ⟨?_, ?_, ?_⟩
  · intro hpat
    simp [inferIdField, hpat]
  · intro hpat hfind
    refine ⟨by simp [inferIdField, hpat, hfind], ?_, ?_⟩
    · exact List.find?_some hfind
    · exact List.mem_of_find?_eq_some hfind
  · intro hpat hfind
    simp [inferIdField, hpat, hfind]

/-- Witness for the amended C4 at the counterexample cohort: no pattern
matches, the fallback finds `y`, and the code's test accepts `y`. -/
theorem claim_C4_witness :
    inferIdField [[("x", .num 1), ("y", .num 1)], [("x", .num 1), ("y", .str "a")]] = "y" ∧
    codeUniqueFieldOk [[("x", .num 1), ("y", .num 1)], [("x", .num 1), ("y", .str "a")]] "y" = true ∧
    "y" ∈ ([("x", JSVal.num 1), ("y", JSVal.num 1)] : Record).map Prod.fst :=
  (claim_C4_amended_id_field_selection [("x", .num 1), ("y", .num 1)]
    [[("x", .num 1), ("y", .str "a")]] "y").2.1 (by decide) (by decide)

theorem rankVals_length (i rank : ℕ) (prev : ℚ) (l : List ℚ) :
    (rankVals i rank prev l).length = l.length := by
  induction l generalizing i rank prev with
  | nil => rfl
  | cons v rest ih => simp [rankVals, ih]

theorem rankGo_eq_zipWith {α : Type} (get : α → ℚ) (set : α → ℕ → α)
    (i rank : ℕ) (prev : ℚ) (l : List α) :
    rankGo get set i rank prev l =
      List.zipWith set l (rankVals i rank prev (l.map get)) := by
  induction l generalizing i rank prev with
  | nil => rfl
  | cons x rest ih => simp [rankGo, rankVals, ih]

theorem chain_ge_forall_le (prev : ℚ) (l : List ℚ)
    (hc : List.Chain (fun a b => b ≤ a) prev l) : ∀ x ∈ l, x ≤ prev := by
  induction l generalizing prev with
  | nil => intro x hx; simp at hx
  | cons v rest ih =>
    rw [List.chain_cons] at hc
    intro x hx
    rcases List.mem_cons.mp hx with rfl | hx
    · exact hc.1
    · exact le_trans (ih v hc.2 x hx) hc.1

theorem rankVals_spec (l : List ℚ) (before : List ℚ) (prev : ℚ) (j : ℕ) (v : ℚ)
    (hb : ∀ x ∈ before, prev ≤ x)
    (hc : List.Chain (fun a b => b ≤ a) prev l)
    (hv : l[j]? = some v) :
    (rankVals before.length (before.countP (fun x => decide (prev < x)) + 1) prev l)[j]? =
      some ((before ++ l).countP (fun x => decide (v < x)) + 1) := by
  induction l generalizing before prev j with
  | nil => simp at hv
  | cons w rest ih =>
    rw [List.chain_cons] at hc
    have hwle : w ≤ prev := hc.1
    have hrest : ∀ x ∈ rest, x ≤ w := chain_ge_forall_le w rest hc.2
    have hcount_cons : (w :: rest).countP (fun x => decide (w < x)) = 0 := by
      rw [List.countP_eq_zero]
      intro a ha
      rcases List.mem_cons.mp ha with rfl | ha
      · simp
      · simpa using not_lt.mpr (hrest a ha)
    have hrank' :
        (if w < prev then before.length + 1
          else before.countP (fun x => decide (prev < x)) + 1) =
        (before ++ [w]).countP (fun x => decide (w < x)) + 1 := by
      by_cases hwp : w < prev
      · rw [if_pos hwp]
        have h2 : (before ++ [w]).countP (fun x => decide (w < x)) = before.length := by
          rw [List.countP_append]
          have h1 : before.countP (fun x => decide (w < x)) = before.length := by
            rw [List.countP_eq_length]
            intro a ha
            simpa using lt_of_lt_of_le hwp (hb a ha)
          simp [h1]
        rw [h2]
      · have hwe : w = prev := le_antisymm hwle (not_lt.mp hwp)
        rw [if_neg hwp]
        subst hwe
        have h2 : (before ++ [w]).countP (fun x => decide (w < x)) =
            before.countP (fun x => decide (w < x)) := by
          rw [List.countP_append]
          simp
        rw [h2]
    cases j with
    | zero =>
      have hv' : v = w := by
        have := hv
        simp only [List.getElem?_cons_zero, Option.some.injEq] at this
        exact this.symm
      subst hv'
      simp only [rankVals, List.getElem?_cons_zero, Option.some.injEq]
      rw [hrank']
      have hsplit : (before ++ v :: rest).countP (fun x => decide (v < x)) =
          (before ++ [v]).countP (fun x => decide (v < x)) := by
        rw [List.countP_append, List.countP_append, hcount_cons]
        simp
      rw [hsplit]
    | succ j' =>
      have hv' : rest[j']? = some v := by
        simpa only [List.getElem?_cons_succ] using hv
      have hb' : ∀ x ∈ before ++ [w], w ≤ x := by
        intro x hx
        rcases List.mem_append.mp hx with hx | hx
        · exact le_trans hwle (hb x hx)
        · simp at hx; subst hx; exact le_refl _
      have ih' := ih (before ++ [w]) w j' hb' hc.2 hv'
      simp only [rankVals, List.getElem?_cons_succ]
      have hlen : (before ++ [w]).length = before.length + 1 := by simp
      rw [hlen] at ih'
      rw [List.append_assoc] at ih'
      simp only [List.singleton_append] at ih'
      rw [← hrank'] at ih'
      exact ih'

theorem rankAll_unfold {α : Type} (get : α → ℚ) (set : α → ℕ → α) (data : List α) :
    rankAll get set data =
      match data.mergeSort (fun a b => decide (get b ≤ get a)) with
      | [] => []
      | x :: rest => set x 1 :: rankGo get set 1 1 (get x) rest := rfl

theorem length_rankAll {α : Type} (get : α → ℚ) (set : α → ℕ → α) (data : List α) :
    (rankAll get set data).length = data.length := by
  have hlen := @List.length_mergeSort _ (fun a b => decide (get b ≤ get a)) data
  rw [rankAll_unfold]
  cases hs : data.mergeSort (fun a b => decide (get b ≤ get a)) with
  | nil =>
    rw [hs] at hlen
    simpa using hlen
  | cons y rest =>
    rw [hs] at hlen
    simp only [List.length_cons] at hlen
    simp [rankGo_eq_zipWith, List.length_zipWith, rankVals_length, ← hlen]

theorem mergeSort_desc_pairwise {α : Type} (get : α → ℚ) (data : List α) :
    (data.mergeSort (fun a b => decide (get b ≤ get a))).Pairwise
      (fun a b => get b ≤ get a) := by
  have h := @List.sorted_mergeSort _ (fun a b => decide (get b ≤ get a))
    (fun a b c hab hbc => by
      simp only [decide_eq_true_eq] at *
      exact le_trans hbc hab)
    (fun a b => by
      by_cases h : get b ≤ get a
      · simp [h]
      · simp [le_of_not_le h]) data
  exact h.imp (by intro a b hab; simpa using hab)

theorem rankAll_spec {α : Type} (get : α → ℚ) (set : α → ℕ → α) (data : List α)
    (j : ℕ) (x : α)
    (hx : (data.mergeSort (fun a b => decide (get b ≤ get a)))[j]? = some x) :
    (rankAll get set data)[j]? =
      some (set x (data.countP (fun r => decide (get x < get r)) + 1)) := by
  rw [rankAll_unfold]
  cases hs : data.mergeSort (fun a b => decide (get b ≤ get a)) with
  | nil => rw [hs] at hx; simp at hx
  | cons y rest =>
    rw [hs] at hx
    have hpair : (y :: rest).Pairwise (fun a b => get b ≤ get a) := by
      have h := mergeSort_desc_pairwise get data
      rwa [hs] at h
    have hperm : (y :: rest).Perm data := by
      have h := List.mergeSort_perm data (fun a b => decide (get b ≤ get a))
      rwa [hs] at h
    have hcount : ∀ v : ℚ, data.countP (fun r => decide (v < get r)) =
        (y :: rest).countP (fun r => decide (v < get r)) :=
      fun v => (hperm.countP_eq _).symm
    cases j with
    | zero =>
      have hxy : x = y := by
        simp only [List.getElem?_cons_zero, Option.some.injEq] at hx
        exact hx.symm
      subst hxy
      have h0 : (x :: rest).countP (fun r => decide (get x < get r)) = 0 := by
        rw [List.countP_eq_zero]
        intro a ha
        rcases List.mem_cons.mp ha with rfl | ha
        · simp
        · have := (List.pairwise_cons.mp hpair).1 a ha
          simpa using not_lt.mpr this
      rw [hcount, h0]
      show (set x 1 :: rankGo get set 1 1 (get x) rest)[0]? = some (set x (0 + 1))
      simp
    | succ j' =>
      have hx' : rest[j']? = some x := by
        simpa only [List.getElem?_cons_succ] using hx
      have hchain : List.Chain (fun a b => b ≤ a) (get y) (rest.map get) := by
        have hch : List.Chain' (fun a b => get b ≤ get a) (y :: rest) := hpair.chain'
        exact (List.chain_map get).mpr hch
      have hvals : (rest.map get)[j']? = some (get x) := by
        rw [List.getElem?_map, hx']
        rfl
      have hrv := rankVals_spec (rest.map get) [get y] (get y) j' (get x)
        (by intro a ha; simp at ha; subst ha; exact le_refl _) hchain hvals
      have h1 : ([get y] : List ℚ).countP (fun z => decide (get y < z)) = 0 := by simp
      rw [h1] at hrv
      have h2 : ([get y] : List ℚ).length = 1 := rfl
      rw [h2] at hrv
      simp only [List.getElem?_cons_succ]
      rw [rankGo_eq_zipWith, List.getElem?_zipWith, hx', hrv]
      have h3 : (([get y] : List ℚ) ++ rest.map get) = (y :: rest).map get := by
        simp
      rw [h3, List.countP_map]
      have h4 : (y :: rest).countP ((fun z => decide (get x < z)) ∘ get) =
          data.countP (fun r => decide (get x < get r)) := by
        rw [hcount]
        rfl
      rw [h4]

theorem countP_lt_of_witness {α : Type} (p q : α → Bool) (l : List α)
    (h : ∀ a ∈ l, p a = true → q a = true) (a : α) (ha : a ∈ l)
    (hq : q a = true) (hp : p a = false) : l.countP p < l.countP q := by
  induction l with
  | nil => simp at ha
  | cons b rest ih =>
    rw [List.countP_cons, List.countP_cons]
    rcases List.mem_cons.mp ha with rfl | ha
    · rw [hp, hq]
      have hm : rest.countP p ≤ rest.countP q :=
        List.countP_mono_left (fun z hz => h z (List.mem_cons_of_mem _ hz))
      simp only [Bool.false_eq_true, if_false, if_true]
      omega
    · have hm := ih (fun z hz hpz => h z (List.mem_cons_of_mem _ hz) hpz) ha
      have hhead : (if p b then 1 else 0) ≤ (if q b then 1 else 0) := by
        by_cases hpb : p b = true
        · rw [hpb, h b (List.mem_cons_self b rest) hpb]
        · simp only [Bool.not_eq_true] at hpb
          simp [hpb]
      omega

/-- Claim C2: `calcRanks` implements standard competition ranking — the
element at sorted position `j` receives rank one plus the number of records
with strictly greater metric value (so the first element gets rank 1, a
record strictly below its predecessor gets its 1-based position, a tied
record inherits); two records share a rank exactly when their metric values
are equal. -/
theorem claim_C2_competition_ranking (data : List Record) (key rankKey : String)
    (j j' : ℕ) (x x' : Record)
    (hx : (data.mergeSort
      (fun a b => decide (numOr0 b key ≤ numOr0 a key)))[j]? = some x)
    (hx' : (data.mergeSort
      (fun a b => decide (numOr0 b key ≤ numOr0 a key)))[j']? = some x') :
    (calcRanks key rankKey data).length = data.length ∧
    (calcRanks key rankKey data)[j]? =
      some (setVal x rankKey
        (.num (data.countP (fun r => decide (numOr0 x key < numOr0 r key)) + 1))) ∧
    (data.countP (fun r => decide (numOr0 x key < numOr0 r key)) =
        data.countP (fun r => decide (numOr0 x' key < numOr0 r key)) ↔
      numOr0 x key = numOr0 x' key) := by
  have hmemsort : ∀ {i : ℕ} {y : Record},
      (data.mergeSort (fun a b => decide (numOr0 b key ≤ numOr0 a key)))[i]? = some y →
      y ∈ data := by
    intro i y hy
    obtain ⟨hlt, hel⟩ := List.getElem?_eq_some_iff.mp hy
    exact List.mem_mergeSort.mp (hel ▸ List.getElem_mem hlt)
  have hxm : x ∈ data := hmemsort hx
  have hx'm : x' ∈ data := hmemsort hx'
  refine ⟨length_rankAll _ _ _, ?_, ?_⟩
  · exact_mod_cast rankAll_spec (fun r => numOr0 r key)
      (fun r n => setVal r rankKey (.num n)) data j x hx
  · constructor
    · intro hcnt
      by_contra hne
      rcases lt_trichotomy (numOr0 x key) (numOr0 x' key) with hlt | heq | hgt
      · have := countP_lt_of_witness
          (fun r => decide (numOr0 x' key < numOr0 r key))
          (fun r => decide (numOr0 x key < numOr0 r key)) data
          (fun a _ hpa => by
            simp only [decide_eq_true_eq] at hpa ⊢
            exact lt_trans hlt hpa)
          x' hx'm (by simpa using hlt) (by simp)
        omega
      · exact hne heq
      · have := countP_lt_of_witness
          (fun r => decide (numOr0 x key < numOr0 r key))
          (fun r => decide (numOr0 x' key < numOr0 r key)) data
          (fun a _ hpa => by
            simp only [decide_eq_true_eq] at hpa ⊢
            exact lt_trans hgt hpa)
          x hxm (by simpa using hgt) (by simp)
        omega
    · intro heq
      rw [heq]

/-- Witness for C2 at raw totals 90, 90, 80: ranks are 1, 1, 3 — the tied pair
shares rank 1 and the next record gets rank 3, never 2. -/
theorem claim_C2_witness :
    (calcRanks "t" "rk" [[("t", .num 90)], [("t", .num 90)], [("t", .num 80)]]).length = 3 ∧
    (calcRanks "t" "rk" [[("t", .num 90)], [("t", .num 90)], [("t", .num 80)]])[0]? =
      some [("t", .num 90), ("rk", .num 1)] ∧
    (calcRanks "t" "rk" [[("t", .num 90)], [("t", .num 90)], [("t", .num 80)]])[1]? =
      some [("t", .num 90), ("rk", .num 1)] ∧
    (calcRanks "t" "rk" [[("t", .num 90)], [("t", .num 90)], [("t", .num 80)]])[2]? =
      some [("t", .num 80), ("rk", .num 3)] := by
  have hsort : ([[("t", JSVal.num 90)], [("t", JSVal.num 90)], [("t", JSVal.num 80)]] :
      List Record).mergeSort
        (fun a b => decide (numOr0 b "t" ≤ numOr0 a "t")) =
      [[("t", JSVal.num 90)], [("t", JSVal.num 90)], [("t", JSVal.num 80)]] :=
    List.mergeSort_of_sorted (by decide)
  have h0 := claim_C2_competition_ranking
    [[("t", .num 90)], [("t", .num 90)], [("t", .num 80)]] "t" "rk" 0 0
    [("t", .num 90)] [("t", .num 90)] (by rw [hsort]; decide) (by rw [hsort]; decide)
  have h1 := claim_C2_competition_ranking
    [[("t", .num 90)], [("t", .num 90)], [("t", .num 80)]] "t" "rk" 1 1
    [("t", .num 90)] [("t", .num 90)] (by rw [hsort]; decide) (by rw [hsort]; decide)
  have h2 := claim_C2_competition_ranking
    [[("t", .num 90)], [("t", .num 90)], [("t", .num 80)]] "t" "rk" 2 2
    [("t", .num 80)] [("t", .num 80)] (by rw [hsort]; decide) (by rw [hsort]; decide)
  have hc90 : ([[("t", JSVal.num 90)], [("t", JSVal.num 90)], [("t", JSVal.num 80)]] :
      List Record).countP
        (fun r => decide (numOr0 [("t", JSVal.num 90)] "t" < numOr0 r "t")) = 0 := by
    decide
  have hc80 : ([[("t", JSVal.num 90)], [("t", JSVal.num 90)], [("t", JSVal.num 80)]] :
      List Record).countP
        (fun r => decide (numOr0 [("t", JSVal.num 80)] "t" < numOr0 r "t")) = 2 := by
    decide
  refine ⟨by simpa using h0.1, ?_, ?_, ?_⟩
  · have := h0.2.1
    rw [hc90] at this
    simpa [setVal, assocSet] using this
  · have := h1.2.1
    rw [hc90] at this
    simpa [setVal, assocSet] using this
  · have := h2.2.1
    rw [hc80] at this
    have h3 : (2 + 1 : ℚ) = 3 := by norm_num
    simpa [setVal, assocSet, h3] using this

theorem chunkGo_eq_map {α : Type} (f : α → α) (c : ℕ) (hc : 0 < c) :
    ∀ (fuel : ℕ) (l : List α), l.length ≤ fuel → chunkGo f c fuel l = l.map f := by
  intro fuel
  induction fuel with
  | zero =>
    intro l hl
    cases l with
    | nil => rfl
    | cons x xs => simp at hl
  | succ n ih =>
    intro l hl
    cases l with
    | nil => rfl
    | cons x xs =>
      show ((x :: xs).take c).map f ++ chunkGo f c n ((x :: xs).drop c) = (x :: xs).map f
      rw [ih ((x :: xs).drop c) (by simp [List.length_drop] at hl ⊢; omega)]
      rw [← List.map_append, List.take_append_drop]

theorem chunkProcess_eq_map {α : Type} (f : α → α) (c : ℕ) (hc : 0 < c) (l : List α) :
    chunkProcess f c l = l.map f :=
  chunkGo_eq_map f c hc l.length l (le_refl _)

/-- Claim C7: every numeric output of the scoring stage is independent of the
chunk size used for batched processing — the per-subject statistics are
computed over the whole cohort before any per-record assignment, so the whole
`processInChunks` output (totals, assigned values and all ranks) is the same
for any two positive chunk sizes. -/
theorem claim_C7_chunk_size_independence (c₁ c₂ : ℕ) (hc₁ : 0 < c₁) (hc₂ : 0 < c₂)
    (data : List Record) (subjects small4 : List String) (skip : Bool) :
    processInChunks c₁ data subjects small4 skip =
      processInChunks c₂ data subjects small4 skip := by
  unfold processInChunks
  simp only [chunkProcess_eq_map _ _ hc₁, chunkProcess_eq_map _ _ hc₂]

/-- Witness for C7: chunk sizes 1 and 5000 give identical output on a
two-record cohort. -/
theorem claim_C7_witness :
    processInChunks 1 [[("数学", .num 90)], [("数学", .num 80)]] ["数学"] [] false =
      processInChunks 5000 [[("数学", .num 90)], [("数学", .num 80)]] ["数学"] [] false :=
  claim_C7_chunk_size_independence 1 5000 (by decide) (by decide)
    [[("数学", .num 90)], [("数学", .num 80)]] ["数学"] [] false

theorem foldA_getVal_preserved_mem (stats : String → ℚ × ℚ) (l : List String)
    (r : Record) (acc : ℚ) (t : String)
    (ht : ∀ s ∈ l, ("assigned_" ++ s) ≠ t) :
    getVal (l.foldl (fun (p : Record × ℚ) subj =>
      let a := assignedOf stats p.1 subj
      (setVal p.1 ("assigned_" ++ subj) (.num a), p.2 + a)) (r, acc)).1 t = getVal r t := by
  induction l generalizing r acc with
  | nil => rfl
  | cons s rest ih =>
    simp only [List.foldl_cons]
    rw [ih _ _ (fun z hz => ht z (List.mem_cons_of_mem _ hz))]
    exact getVal_setVal_ne r _ t _ (ht s (List.mem_cons_self s rest))

theorem foldA_getVal_assigned (stats : String → ℚ × ℚ) (ss : List String)
    (subj : String) (hsubj : subj ∈ ss) (row : Record) :
    ∀ (r0 : Record) (acc : ℚ),
    (∀ s ∈ ss, getVal r0 s = getVal row s) →
    (∀ s ∈ ss, ∀ s' : String, ("assigned_" ++ s') ≠ s) →
    getVal (ss.foldl (fun (p : Record × ℚ) subj =>
      let a := assignedOf stats p.1 subj
      (setVal p.1 ("assigned_" ++ subj) (.num a), p.2 + a)) (r0, acc)).1
        ("assigned_" ++ subj) = some (.num (assignedOf stats row subj)) := by
  induction ss with
  | nil => simp at hsubj
  | cons s rest ih =>
    intro r0 acc hread hnc
    simp only [List.foldl_cons]
    have hval : assignedOf stats r0 s = assignedOf stats row s := by
      unfold assignedOf
      rw [show numOr0 r0 s = numOr0 row s by
        unfold numOr0 jsNumField
        rw [hread s (List.mem_cons_self s rest)]]
    by_cases hmem : subj ∈ rest
    · apply ih hmem
      · intro t ht
        rw [getVal_setVal_ne _ _ _ _ (hnc t (List.mem_cons_of_mem _ ht) s)]
        exact hread t (List.mem_cons_of_mem _ ht)
      · intro t ht s'
        exact hnc t (List.mem_cons_of_mem _ ht) s'
    · have hse : subj = s := by
        rcases List.mem_cons.mp hsubj with h | h
        · exact h
        · exact absurd h hmem
      subst hse
      rw [foldA_getVal_preserved_mem stats rest _ _ _
        (fun z hz heq => hmem (by
          rw [← @str_append_left_cancel "assigned_" _ _ heq]
          exact hz))]
      rw [getVal_setVal_self, hval]

theorem scoreRow_getVal_assigned (data : List Record) (subjects small4 : List String)
    (subj : String) (row : Record) (hsubj : subj ∈ small4)
    (hclean1 : ∀ s ∈ small4, s ≠ "_rawTotal")
    (hclean2 : ∀ s ∈ small4, ∀ s' : String, ("assigned_" ++ s') ≠ s) :
    getVal (scoreRow subjects small4 (statsOf data) false row) ("assigned_" ++ subj) =
      some (.num (assignedOf (statsOf data) row subj)) := by
  unfold scoreRow
  rw [if_neg (by simp)]
  rw [getVal_setVal_ne _ _ _ _ (assigned_ne_assignedTotal subj).symm]
  exact foldA_getVal_assigned (statsOf data) small4 subj hsubj row _ _
    (fun s hs => getVal_setVal_ne row _ s _ (fun he => hclean1 s hs he.symm))
    hclean2

/-- Claim C1: for a rebasing subject whose cohort-wide min and max (missing
values coerced to 0) differ, every record's assigned score is the half-up
rounding of `40 + (s - min) / (max - min) * 60`; the cohort minimum maps to
40 and the cohort maximum to 100; when max equals min the raw value is kept
unchanged.  (The key-disjointness hypotheses rule out subject names that
collide with the fields the scoring loop itself writes, which real subject
names never do.) -/
theorem claim_C1_min_max_rebasing (data : List Record) (subjects small4 : List String)
    (subj : String) (row : Record) (_hrow : row ∈ data) (hsubj : subj ∈ small4)
    (hclean1 : ∀ s ∈ small4, s ≠ "_rawTotal")
    (hclean2 : ∀ s ∈ small4, ∀ s' : String, ("assigned_" ++ s') ≠ s) :
    getVal (scoreRow subjects small4 (statsOf data) false row) ("assigned_" ++ subj) =
      some (.num (if (statsOf data subj).2 ≠ (statsOf data subj).1 then
        ((jsRound (40 + ((numOr0 row subj - (statsOf data subj).1) /
            ((statsOf data subj).2 - (statsOf data subj).1)) * 60) : ℤ) : ℚ)
        else numOr0 row subj)) ∧
    ((statsOf data subj).2 ≠ (statsOf data subj).1 →
      numOr0 row subj = (statsOf data subj).1 →
      getVal (scoreRow subjects small4 (statsOf data) false row) ("assigned_" ++ subj) =
        some (.num 40)) ∧
    ((statsOf data subj).2 ≠ (statsOf data subj).1 →
      numOr0 row subj = (statsOf data subj).2 →
      getVal (scoreRow subjects small4 (statsOf data) false row) ("assigned_" ++ subj) =
        some (.num 100)) ∧
    ((statsOf data subj).2 = (statsOf data subj).1 →
      getVal (scoreRow subjects small4 (statsOf data) false row) ("assigned_" ++ subj) =
        some (.num (numOr0 row subj))) := by
  have hbase := scoreRow_getVal_assigned data subjects small4 subj row hsubj hclean1 hclean2
  have hunfold : assignedOf (statsOf data) row subj =
      if (statsOf data subj).2 ≠ (statsOf data subj).1 then
        ((jsRound (40 + ((numOr0 row subj - (statsOf data subj).1) /
            ((statsOf data subj).2 - (statsOf data subj).1)) * 60) : ℤ) : ℚ)
      else numOr0 row subj := rfl
  refine ⟨by rw [hbase, hunfold], ?_, ?_, ?_⟩
  · intro hne hmin
    rw [hbase, hunfold, if_pos hne, hmin]
    have h40 : (40 : ℚ) + (((statsOf data subj).1 - (statsOf data subj).1) /
        ((statsOf data subj).2 - (statsOf data subj).1)) * 60 = 40 := by
      rw [sub_self, zero_div, zero_mul, add_zero]
    rw [h40]
    norm_num [jsRound]
  · intro hne hmax
    rw [hbase, hunfold, if_pos hne, hmax]
    have h100 : (40 : ℚ) + (((statsOf data subj).2 - (statsOf data subj).1) /
        ((statsOf data subj).2 - (statsOf data subj).1)) * 60 = 100 := by
      rw [div_self (sub_ne_zero.mpr hne)]
      norm_num
    rw [h100]
    norm_num [jsRound]
  · intro heq
    rw [hbase, hunfold, if_neg (by simp [heq])]

/-- Witness for C1 on cohort raw values 40, 70, 100 for subject 化学: the
minimum maps to 40, the midpoint to 70 and the maximum to 100. -/
theorem claim_C1_witness :
    getVal (scoreRow ["化学"] ["化学"]
      (statsOf [[("化学", .num 40)], [("化学", .num 70)], [("化学", .num 100)]]) false
      [("化学", .num 40)]) ("assigned_" ++ "化学") = some (.num 40) ∧
    getVal (scoreRow ["化学"] ["化学"]
      (statsOf [[("化学", .num 40)], [("化学", .num 70)], [("化学", .num 100)]]) false
      [("化学", .num 70)]) ("assigned_" ++ "化学") = some (.num 70) ∧
    getVal (scoreRow ["化学"] ["化学"]
      (statsOf [[("化学", .num 40)], [("化学", .num 70)], [("化学", .num 100)]]) false
      [("化学", .num 100)]) ("assigned_" ++ "化学") = some (.num 100) := by
  have hclean2 : ∀ s ∈ ["化学"], ∀ s' : String, ("assigned_" ++ s') ≠ s := by
    intro s hs s'
    simp only [List.mem_singleton] at hs
    subst hs
    exact strne_of_first "assigned_" s' "化学" 'a' '化' rfl rfl (by decide)
  have hstats : statsOf
      [[("化学", JSVal.num 40)], [("化学", JSVal.num 70)], [("化学", JSVal.num 100)]]
      "化学" = (40, 100) := by
    have hmap : ([[("化学", JSVal.num 40)], [("化学", JSVal.num 70)],
        [("化学", JSVal.num 100)]].map (fun d => numOr0 d "化学")) =
        [40, 70, 100] := rfl
    unfold statsOf
    rw [hmap]
    rw [Prod.ext_iff]
    constructor
    · norm_num [qMin, List.foldl_cons, List.foldl_nil, min_def]
    · norm_num [qMax, List.foldl_cons, List.foldl_nil, max_def]
  have hne : (statsOf [[("化学", JSVal.num 40)], [("化学", JSVal.num 70)],
      [("化学", JSVal.num 100)]] "化学").2 ≠
      (statsOf [[("化学", JSVal.num 40)], [("化学", JSVal.num 70)],
      [("化学", JSVal.num 100)]] "化学").1 := by
    rw [hstats]
    norm_num
  refine ⟨?_, ?_, ?_⟩
  · exact (claim_C1_min_max_rebasing _ ["化学"] ["化学"] "化学" [("化学", .num 40)]
      (by decide) (by decide) (by decide) hclean2).2.1 hne (by rw [hstats]; rfl)
  · have h := (claim_C1_min_max_rebasing
      [[("化学", JSVal.num 40)], [("化学", JSVal.num 70)], [("化学", JSVal.num 100)]]
      ["化学"] ["化学"] "化学" [("化学", .num 70)]
      (by decide) (by decide) (by decide) hclean2).1
    rw [hstats] at h
    have hv : numOr0 [("化学", JSVal.num 70)] "化学" = 70 := rfl
    rw [hv] at h
    simp only [Prod.fst, Prod.snd] at h
    rw [h]
    norm_num [jsRound]
  · exact (claim_C1_min_max_rebasing _ ["化学"] ["化学"] "化学" [("化学", .num 100)]
      (by decide) (by decide) (by decide) hclean2).2.2.1 hne (by rw [hstats]; rfl)

theorem mem_rankAll {α : Type} (get : α → ℚ) (set : α → ℕ → α) (l : List α) (y : α)
    (hy : y ∈ rankAll get set l) : ∃ x ∈ l, ∃ n : ℕ, y = set x n := by
  obtain ⟨j, hj⟩ := List.mem_iff_getElem?.mp hy
  have hlen : j < l.length := by
    obtain ⟨hb, _⟩ := List.getElem?_eq_some_iff.mp hj
    rwa [length_rankAll] at hb
  have hsortlen : j < (l.mergeSort (fun a b => decide (get b ≤ get a))).length := by
    rwa [List.length_mergeSort]
  have hx : (l.mergeSort (fun a b => decide (get b ≤ get a)))[j]? =
      some ((l.mergeSort (fun a b => decide (get b ≤ get a)))[j]) :=
    List.getElem?_eq_some_iff.mpr ⟨hsortlen, rfl⟩
  have hspec := rankAll_spec get set l j _ hx
  rw [hj] at hspec
  exact ⟨_, List.mem_mergeSort.mp (List.getElem_mem hsortlen), _,
    Option.some.inj hspec⟩

theorem rankAll_image_mem {α : Type} (get : α → ℚ) (set : α → ℕ → α) (l : List α)
    (x : α) (hx : x ∈ l) : ∃ n : ℕ, set x n ∈ rankAll get set l := by
  have hms : x ∈ l.mergeSort (fun a b => decide (get b ≤ get a)) :=
    List.mem_mergeSort.mpr hx
  obtain ⟨j, hj⟩ := List.mem_iff_getElem?.mp hms
  have hspec := rankAll_spec get set l j x hj
  exact ⟨_, List.mem_iff_getElem?.mpr ⟨j, hspec⟩⟩

theorem rankAll_ne_nil {α : Type} (get : α → ℚ) (set : α → ℕ → α) (l : List α)
    (hl : l ≠ []) : rankAll get set l ≠ [] := by
  intro h
  have := length_rankAll get set l
  rw [h] at this
  exact hl (List.length_eq_zero.mp this.symm)

theorem mem_calcRanks (key rankKey : String) (l : List Record) (y : Record)
    (hy : y ∈ calcRanks key rankKey l) :
    ∃ x ∈ l, ∃ n : ℕ, y = setVal x rankKey (.num n) :=
  mem_rankAll _ _ l y hy

theorem mem_calcRanksIx (key rankKey : String) (l : List (ℕ × Record))
    (y : ℕ × Record) (hy : y ∈ calcRanksIx key rankKey l) :
    ∃ x ∈ l, ∃ n : ℕ, y = (x.1, setVal x.2 rankKey (.num n)) :=
  mem_rankAll _ _ l y hy

theorem runRanks_pres (P : Record → Prop) (hP : ∀ r k v, P r → P (setVal r k v))
    (pairs : List (String × String)) (l : List Record) (hl : ∀ r ∈ l, P r) :
    ∀ r ∈ runRanks pairs l, P r := by
  induction pairs generalizing l with
  | nil => simpa [runRanks] using hl
  | cons pr rest ih =>
    intro r hr
    have hl' : ∀ r ∈ calcRanks pr.1 pr.2 l, P r := by
      intro y hy
      obtain ⟨x, hx, n, rfl⟩ := mem_calcRanks _ _ _ _ hy
      exact hP _ _ _ (hl x hx)
    exact ih (calcRanks pr.1 pr.2 l) hl' r (by simpa [runRanks] using hr)

theorem runRanksIx_pres (P : Record → Prop) (hP : ∀ r k v, P r → P (setVal r k v))
    (pairs : List (String × String)) (l : List (ℕ × Record))
    (hl : ∀ p ∈ l, P p.2) :
    ∀ p ∈ runRanksIx pairs l, P p.2 := by
  induction pairs generalizing l with
  | nil => simpa [runRanksIx] using hl
  | cons pr rest ih =>
    intro p hp
    have hl' : ∀ q ∈ calcRanksIx pr.1 pr.2 l, P q.2 := by
      intro y hy
      obtain ⟨x, hx, n, rfl⟩ := mem_calcRanksIx _ _ _ _ hy
      exact hP _ _ _ (hl x hx)
    exact ih (calcRanksIx pr.1 pr.2 l) hl' p (by simpa [runRanksIx] using hp)

theorem length_runRanks (pairs : List (String × String)) (l : List Record) :
    (runRanks pairs l).length = l.length := by
  induction pairs generalizing l with
  | nil => simp [runRanks]
  | cons pr rest ih =>
    have h := ih (calcRanks pr.1 pr.2 l)
    rw [show runRanks (pr :: rest) l = runRanks rest (calcRanks pr.1 pr.2 l) from rfl, h]
    exact length_rankAll _ _ _

theorem length_runRanksIx (pairs : List (String × String)) (l : List (ℕ × Record)) :
    (runRanksIx pairs l).length = l.length := by
  induction pairs generalizing l with
  | nil => simp [runRanksIx]
  | cons pr rest ih =>
    have h := ih (calcRanksIx pr.1 pr.2 l)
    rw [show runRanksIx (pr :: rest) l = runRanksIx rest (calcRanksIx pr.1 pr.2 l) from rfl, h]
    exact length_rankAll _ _ _

theorem addToGroup_cons_hit {α : Type} (c' : String) (g : List α)
    (rest : List (String × List α)) (c : String) (x : α) (h : (c' == c) = true) :
    addToGroup ((c', g) :: rest) c x = (c', g ++ [x]) :: rest := by
  simp [addToGroup, h]

theorem addToGroup_cons_miss {α : Type} (c' : String) (g : List α)
    (rest : List (String × List α)) (c : String) (x : α) (h : (c' == c) = false) :
    addToGroup ((c', g) :: rest) c x = (c', g) :: addToGroup rest c x := by
  simp [addToGroup, h]

theorem addToGroup_members {α : Type} (acc : List (String × List α)) (c : String)
    (x : α) :
    ∀ cg ∈ addToGroup acc c x, ∀ p ∈ cg.2, (∃ cg' ∈ acc, p ∈ cg'.2) ∨ p = x := by
  induction acc with
  | nil =>
    intro cg hcg p hp
    simp only [addToGroup, List.mem_singleton] at hcg
    subst hcg
    simp only [List.mem_singleton] at hp
    exact Or.inr hp
  | cons hd rest ih =>
    obtain ⟨c', g⟩ := hd
    intro cg hcg p hp
    rcases Bool.eq_false_or_eq_true (c' == c) with hc | hc
    case inr =>
      rw [addToGroup_cons_miss c' g rest c x hc] at hcg
      rcases List.mem_cons.mp hcg with heq | hcg
      · subst heq
        exact Or.inl ⟨(c', g), List.mem_cons_self _ _, hp⟩
      · rcases ih cg hcg p hp with ⟨cg', hcg', hp'⟩ | hp'
        · exact Or.inl ⟨cg', List.mem_cons_of_mem _ hcg', hp'⟩
        · exact Or.inr hp'
    case inl =>
      rw [addToGroup_cons_hit c' g rest c x hc] at hcg
      rcases List.mem_cons.mp hcg with heq | hcg
      · subst heq
        simp only [List.mem_append, List.mem_singleton] at hp
        rcases hp with hp | hp
        · exact Or.inl ⟨(c', g), List.mem_cons_self _ _, hp⟩
        · exact Or.inr hp
      · exact Or.inl ⟨cg, List.mem_cons_of_mem _ hcg, hp⟩

theorem foldl_addToGroup_sub {α : Type} (key : α → String) (l : List α)
    (S : α → Prop) :
    ∀ (init : List (String × List α)),
    (∀ cg ∈ init, ∀ p ∈ cg.2, S p) → (∀ p ∈ l, S p) →
    ∀ cg ∈ l.foldl (fun acc p => addToGroup acc (key p) p) init, ∀ p ∈ cg.2, S p := by
  induction l with
  | nil => intro init hinit _ cg hcg; simpa using hinit cg hcg
  | cons q rest ih =>
    intro init hinit hl
    simp only [List.foldl_cons]
    apply ih
    · intro cg hcg p hp
      rcases addToGroup_members init (key q) q cg hcg p hp with ⟨cg', hcg', hp'⟩ | heq
      · exact hinit cg' hcg' p hp'
      · subst heq
        exact hl p (List.mem_cons_self _ _)
    · intro p hp
      exact hl p (List.mem_cons_of_mem _ hp)

theorem groupByClassIx_sub (l : List (ℕ × Record)) :
    ∀ cg ∈ groupByClassIx l, ∀ p ∈ cg.2, p ∈ l := by
  have h := foldl_addToGroup_sub (fun p : ℕ × Record => classKeyOf p.2) l
    (fun p => p ∈ l) [] (by intro cg hcg; simp at hcg) (fun p hp => hp)
  simpa [groupByClassIx] using h

theorem addToGroup_flatten_perm {α : Type} (acc : List (String × List α)) (c : String)
    (x : α) :
    ((addToGroup acc c x).map Prod.snd).flatten.Perm
      ((acc.map Prod.snd).flatten ++ [x]) := by
  induction acc with
  | nil => simp [addToGroup]
  | cons hd rest ih =>
    obtain ⟨c', g⟩ := hd
    rcases Bool.eq_false_or_eq_true (c' == c) with hc | hc
    case inr =>
      rw [addToGroup_cons_miss c' g rest c x hc]
      simp only [List.map_cons, List.flatten_cons, List.append_assoc]
      exact List.Perm.append_left g ih
    case inl =>
      rw [addToGroup_cons_hit c' g rest c x hc]
      simp only [List.map_cons, List.flatten_cons, List.append_assoc]
      exact List.Perm.append_left g List.perm_append_comm

theorem foldl_addToGroup_flatten_perm {α : Type} (key : α → String) (l : List α) :
    ∀ (init : List (String × List α)),
    ((l.foldl (fun acc p => addToGroup acc (key p) p) init).map Prod.snd).flatten.Perm
      ((init.map Prod.snd).flatten ++ l) := by
  induction l with
  | nil => intro init; simp
  | cons q rest ih =>
    intro init
    simp only [List.foldl_cons]
    refine (ih (addToGroup init (key q) q)).trans ?_
    have h1 := addToGroup_flatten_perm init (key q) q
    refine (h1.append_right rest).trans ?_
    rw [List.append_assoc]
    exact List.Perm.append_left _ (by simp)

theorem groupByClassIx_flatten_perm (l : List (ℕ × Record)) :
    ((groupByClassIx l).map Prod.snd).flatten.Perm l := by
  have h := foldl_addToGroup_flatten_perm (fun p : ℕ × Record => classKeyOf p.2) l []
  simpa [groupByClassIx] using h

theorem length_classPass (subjects small4 : List String) (l : List Record) :
    (classPass subjects small4 l).length = l.length := by
  unfold classPass
  rw [List.length_map, List.length_mergeSort]
  have hmapeq : ((groupByClassIx l.enum).map
      (fun p => runRanksIx (classRankPairs subjects small4) p.2)).map List.length =
      ((groupByClassIx l.enum).map Prod.snd).map List.length := by
    rw [List.map_map, List.map_map]
    apply List.map_congr_left
    intro cg _
    exact length_runRanksIx _ _
  rw [List.length_flatten, hmapeq, ← List.length_flatten]
  rw [(groupByClassIx_flatten_perm l.enum).length_eq]
  exact List.enum_length

theorem classPass_pres (P : Record → Prop) (hP : ∀ r k v, P r → P (setVal r k v))
    (subjects small4 : List String) (l : List Record) (hl : ∀ r ∈ l, P r) :
    ∀ r ∈ classPass subjects small4 l, P r := by
  intro r hr
  unfold classPass at hr
  obtain ⟨p, hp, rfl⟩ := List.mem_map.mp hr
  rw [List.mem_mergeSort] at hp
  obtain ⟨sub, hsub, hpsub⟩ := List.mem_flatten.mp hp
  obtain ⟨cg, hcg, rfl⟩ := List.mem_map.mp hsub
  have hg : ∀ q ∈ cg.2, P q.2 := by
    intro q hq
    have hmem := groupByClassIx_sub l.enum cg hcg q hq
    have := List.mem_enum hmem
    obtain ⟨hlt, heq⟩ := this
    exact heq ▸ hl _ (List.getElem_mem hlt)
  exact runRanksIx_pres P hP _ _ hg p hpsub

theorem foldA_fst_pres (Q : Record → Prop) (hQ : ∀ r k v, Q r → Q (setVal r k v))
    (stats : String → ℚ × ℚ) (ss : List String) :
    ∀ (r0 : Record) (acc : ℚ), Q r0 →
    Q ((ss.foldl (fun (p : Record × ℚ) subj =>
      let a := assignedOf stats p.1 subj
      (setVal p.1 ("assigned_" ++ subj) (.num a), p.2 + a)) (r0, acc)).1) := by
  induction ss with
  | nil => intro r0 acc h; exact h
  | cons s rest ih =>
    intro r0 acc h
    simp only [List.foldl_cons]
    exact ih _ _ (hQ _ _ _ h)

theorem foldS_pres (Q : Record → Prop) (hQ : ∀ r k v, Q r → Q (setVal r k v))
    (ss : List String) :
    ∀ (r0 : Record), Q r0 →
    Q (ss.foldl (fun r subj => setVal r ("assigned_" ++ subj) (.num (numOr0 r subj))) r0) := by
  induction ss with
  | nil => intro r0 h; exact h
  | cons s rest ih =>
    intro r0 h
    simp only [List.foldl_cons]
    exact ih _ (hQ _ _ _ h)

theorem rowOk_setVal (r : Record) (k : String) (v : JSVal)
    (h : (r.map Prod.fst).Nodup ∧ "_rawTotal" ∈ r.map Prod.fst ∧
      "_assignedTotal" ∈ r.map Prod.fst) :
    ((setVal r k v).map Prod.fst).Nodup ∧ "_rawTotal" ∈ (setVal r k v).map Prod.fst ∧
      "_assignedTotal" ∈ (setVal r k v).map Prod.fst :=
  ⟨nodup_keys_setVal r k v h.1, mem_keys_setVal_of_mem r k _ v h.2.1,
    mem_keys_setVal_of_mem r k _ v h.2.2⟩

theorem scoreRow_rowOk (subjects small4 : List String) (stats : String → ℚ × ℚ)
    (skip : Bool) (r : Record) (hnd : (r.map Prod.fst).Nodup) :
    ((scoreRow subjects small4 stats skip r).map Prod.fst).Nodup ∧
      "_rawTotal" ∈ (scoreRow subjects small4 stats skip r).map Prod.fst ∧
      "_assignedTotal" ∈ (scoreRow subjects small4 stats skip r).map Prod.fst := by
  have hQ : ∀ (q : Record) (k : String) (v : JSVal),
      ((q.map Prod.fst).Nodup ∧ "_rawTotal" ∈ q.map Prod.fst) →
      (((setVal q k v).map Prod.fst).Nodup ∧
        "_rawTotal" ∈ (setVal q k v).map Prod.fst) :=
    fun q k v h => ⟨nodup_keys_setVal q k v h.1, mem_keys_setVal_of_mem q k _ v h.2⟩
  have h1 : ((setVal r "_rawTotal" (.num (rawTotalOf subjects r))).map Prod.fst).Nodup ∧
      "_rawTotal" ∈ (setVal r "_rawTotal" (.num (rawTotalOf subjects r))).map Prod.fst :=
    ⟨nodup_keys_setVal _ _ _ hnd, mem_keys_setVal_self _ _ _⟩
  unfold scoreRow
  cases skip with
  | true =>
    rw [if_pos rfl]
    have h2 := foldS_pres _ hQ small4 _ h1
    exact ⟨nodup_keys_setVal _ _ _ h2.1,
      mem_keys_setVal_of_mem _ _ _ _ h2.2,
      mem_keys_setVal_self _ _ _⟩
  | false =>
    rw [if_neg (by simp)]
    have h2 := foldA_fst_pres _ hQ stats small4
      (setVal r "_rawTotal" (.num (rawTotalOf subjects r)))
      (rawTotalOf subjects r - small4.foldl
        (fun acc s => acc + numOr0 (setVal r "_rawTotal" (.num (rawTotalOf subjects r))) s) 0)
      h1
    exact ⟨nodup_keys_setVal _ _ _ h2.1,
      mem_keys_setVal_of_mem _ _ _ _ h2.2,
      mem_keys_setVal_self _ _ _⟩

theorem foldl_sum_congr (ss : List String) (f g : String → ℚ)
    (h : ∀ s ∈ ss, f s = g s) :
    ∀ a : ℚ, ss.foldl (fun acc s => acc + f s) a = ss.foldl (fun acc s => acc + g s) a := by
  induction ss with
  | nil => intro a; rfl
  | cons s rest ih =>
    intro a
    simp only [List.foldl_cons]
    rw [h s (List.mem_cons_self s rest)]
    exact ih (fun t ht => h t (List.mem_cons_of_mem _ ht)) _

theorem foldl_add_init (f : String → ℚ) (ss : List String) :
    ∀ x y : ℚ, ss.foldl (fun acc s => acc + f s) (x + y) =
      x + ss.foldl (fun acc s => acc + f s) y := by
  induction ss with
  | nil => intro x y; rfl
  | cons s rest ih =>
    intro x y
    simp only [List.foldl_cons]
    rw [add_assoc, ih]

theorem foldA_snd (stats : String → ℚ × ℚ) (ss : List String) (row : Record) :
    ∀ (r0 : Record) (acc : ℚ),
    (∀ s ∈ ss, getVal r0 s = getVal row s) →
    (∀ s ∈ ss, ∀ s' : String, ("assigned_" ++ s') ≠ s) →
    (ss.foldl (fun (p : Record × ℚ) subj =>
      let a := assignedOf stats p.1 subj
      (setVal p.1 ("assigned_" ++ subj) (.num a), p.2 + a)) (r0, acc)).2 =
      ss.foldl (fun a s => a + assignedOf stats row s) acc := by
  induction ss with
  | nil => intro r0 acc _ _; rfl
  | cons s rest ih =>
    intro r0 acc hread hnc
    simp only [List.foldl_cons]
    have hval : assignedOf stats r0 s = assignedOf stats row s := by
      unfold assignedOf
      rw [show numOr0 r0 s = numOr0 row s by
        unfold numOr0 jsNumField
        rw [hread s (List.mem_cons_self s rest)]]
    rw [ih _ _
      (by
        intro t ht
        rw [getVal_setVal_ne _ _ _ _ (hnc t (List.mem_cons_of_mem _ ht) s)]
        exact hread t (List.mem_cons_of_mem _ ht))
      (fun t ht s' => hnc t (List.mem_cons_of_mem _ ht) s'), hval]

theorem scoreRow_getVal_assignedTotal (subjects small4 : List String)
    (stats : String → ℚ × ℚ) (r : Record)
    (hclean1 : ∀ s ∈ small4, s ≠ "_rawTotal")
    (hclean2 : ∀ s ∈ small4, ∀ s' : String, ("assigned_" ++ s') ≠ s) :
    getVal (scoreRow subjects small4 stats false r) "_assignedTotal" =
      some (.num (rawTotalOf subjects r
        - small4.foldl (fun acc s => acc + numOr0 r s) 0
        + small4.foldl (fun acc s => acc + assignedOf stats r s) 0)) := by
  unfold scoreRow
  rw [if_neg (by simp)]
  rw [getVal_setVal_self]
  simp only [Option.some.injEq, JSVal.num.injEq]
  have hread : ∀ s ∈ small4,
      getVal (setVal r "_rawTotal" (.num (rawTotalOf subjects r))) s = getVal r s :=
    fun s hs => getVal_setVal_ne r _ s _ (fun he => hclean1 s hs he.symm)
  rw [foldA_snd stats small4 r _ _ hread hclean2]
  have hS4 : small4.foldl (fun acc s =>
      acc + numOr0 (setVal r "_rawTotal" (.num (rawTotalOf subjects r))) s) 0 =
      small4.foldl (fun acc s => acc + numOr0 r s) 0 :=
    foldl_sum_congr small4 _ _
      (fun s hs => by
        unfold numOr0 jsNumField
        rw [hread s hs]) 0
  rw [hS4]
  have hshift := foldl_add_init (fun s => assignedOf stats r s) small4
    (rawTotalOf subjects r - small4.foldl (fun acc s => acc + numOr0 r s) 0) 0
  rw [add_zero] at hshift
  rw [hshift]

/-- Claim C3: the scoring stage terminates with one output row per input row;
every output row carries exactly one `_rawTotal` and exactly one
`_assignedTotal` binding; the stored `_assignedTotal` equals `_rawTotal`
minus the sum of the row's raw rebasing-subject values plus the sum of its
assigned rebasing-subject values; and with an empty rebasing set the two
totals coincide. -/
theorem claim_C3_totals_invariant (c : ℕ) (hc : 0 < c) (data : List Record)
    (subjects small4 : List String)
    (hkeys : ∀ r ∈ data, (r.map Prod.fst).Nodup)
    (row : Record) (hrow : row ∈ processInChunks c data subjects small4 false)
    (r : Record)
    (hclean1 : ∀ s ∈ small4, s ≠ "_rawTotal")
    (hclean2 : ∀ s ∈ small4, ∀ s' : String, ("assigned_" ++ s') ≠ s) :
    ((row.map Prod.fst).count "_rawTotal" = 1 ∧
      (row.map Prod.fst).count "_assignedTotal" = 1) ∧
    getVal (scoreRow subjects small4 (statsOf data) false r) "_assignedTotal" =
      some (.num (rawTotalOf subjects r
        - small4.foldl (fun acc s => acc + numOr0 r s) 0
        + small4.foldl (fun acc s => acc + assignedOf (statsOf data) r s) 0)) ∧
    (small4 = [] →
      getVal (scoreRow subjects small4 (statsOf data) false r) "_assignedTotal" =
        some (.num (rawTotalOf subjects r))) ∧
    (processInChunks c data subjects small4 false).length = data.length := by
  have hrel := scoreRow_getVal_assignedTotal subjects small4 (statsOf data) r
    hclean1 hclean2
  refine ⟨?_, hrel, ?_, ?_⟩
  · have hP : ∀ q ∈ processInChunks c data subjects small4 false,
        ((q.map Prod.fst).Nodup ∧ "_rawTotal" ∈ q.map Prod.fst ∧
          "_assignedTotal" ∈ q.map Prod.fst) := by
      unfold processInChunks
      simp only [chunkProcess_eq_map _ _ hc]
      apply classPass_pres _ rowOk_setVal
      apply runRanks_pres _ rowOk_setVal
      intro q hq
      obtain ⟨r0, hr0, rfl⟩ := List.mem_map.mp hq
      exact scoreRow_rowOk subjects small4 (statsOf data) false r0 (hkeys r0 hr0)
    obtain ⟨hnd, hm1, hm2⟩ := hP row hrow
    exact ⟨List.count_eq_one_of_mem hnd hm1, List.count_eq_one_of_mem hnd hm2⟩
  · intro hs4
    subst hs4
    rw [hrel]
    simp only [List.foldl_nil]
    norm_num
  · unfold processInChunks
    simp only [chunkProcess_eq_map _ _ hc]
    rw [length_classPass, length_runRanks, List.length_map]

/-- Witness for C3 on a one-record cohort with no rebasing subjects: the
output row holds exactly one of each total, the assigned total equals the
raw total, and the stage emits one row. -/
theorem claim_C3_witness :
    (((processInChunks 5000 [[("a", JSVal.num 0)]] [] [] false).headD
      []).map Prod.fst).count "_rawTotal" = 1 ∧
    (((processInChunks 5000 [[("a", JSVal.num 0)]] [] [] false).headD
      []).map Prod.fst).count "_assignedTotal" = 1 ∧
    getVal (scoreRow [] [] (statsOf [[("a", JSVal.num 0)]]) false
      [("a", JSVal.num 0)]) "_assignedTotal" =
      some (.num (rawTotalOf [] [("a", JSVal.num 0)])) ∧
    (processInChunks 5000 [[("a", JSVal.num 0)]] [] [] false).length = 1 := by
  have hlen : (processInChunks 5000 [[("a", JSVal.num 0)]] [] [] false).length = 1 := by
    unfold processInChunks
    simp only [chunkProcess_eq_map _ _ (by decide : (0 : ℕ) < 5000)]
    rw [length_classPass, length_runRanks, List.length_map]
    rfl
  have hmem : (processInChunks 5000 [[("a", JSVal.num 0)]] [] [] false).headD [] ∈
      processInChunks 5000 [[("a", JSVal.num 0)]] [] [] false := by
    cases houtput : processInChunks 5000 [[("a", JSVal.num 0)]] [] [] false with
    | nil => rw [houtput] at hlen; simp at hlen
    | cons a l => simp
  have h := claim_C3_totals_invariant 5000 (by decide) [[("a", JSVal.num 0)]] [] []
    (by decide) _ hmem [("a", JSVal.num 0)] (by simp) (by simp)
  exact ⟨h.1.1, h.1.2, h.2.2.1 rfl, h.2.2.2.trans rfl⟩

theorem groupOf_nil {α : Type} (c : String) : groupOf ([] : List (String × List α)) c = [] := rfl

theorem groupOf_cons {α : Type} (c₀ c : String) (g : List α)
    (rest : List (String × List α)) :
    groupOf ((c₀, g) :: rest) c = if c₀ = c then g else groupOf rest c := by
  by_cases h : c₀ = c
  · simp [groupOf, List.find?_cons_of_pos, h]
  · rw [if_neg h]
    simp only [groupOf]
    rw [List.find?_cons_of_neg]
    simpa using h

theorem groupOf_addToGroup {α : Type} (acc : List (String × List α)) (c' c : String)
    (x : α) :
    groupOf (addToGroup acc c' x) c =
      if c' = c then groupOf acc c ++ [x] else groupOf acc c := by
  induction acc with
  | nil =>
    show groupOf [(c', [x])] c = _
    rw [groupOf_cons, groupOf_nil]
    by_cases h : c' = c <;> simp [h]
  | cons hd rest ih =>
    obtain ⟨c₀, g⟩ := hd
    by_cases h0 : c₀ = c'
    · rw [addToGroup_cons_hit c₀ g rest c' x (by simpa using h0)]
      rw [groupOf_cons, groupOf_cons]
      by_cases hc : c₀ = c
      · rw [if_pos hc, if_pos hc, if_pos (h0 ▸ hc)]
      · rw [if_neg hc, if_neg hc]
        have hc' : ¬ c' = c := fun he => hc (h0 ▸ he)
        rw [if_neg hc']
    · rw [addToGroup_cons_miss c₀ g rest c' x (by simpa using h0)]
      rw [groupOf_cons, groupOf_cons, ih]
      by_cases hc : c₀ = c
      · have hc' : ¬ c' = c := fun he => h0 (hc ▸ he ▸ rfl)
        rw [if_pos hc, if_pos hc, if_neg hc']
      · rw [if_neg hc, if_neg hc]

theorem groupOf_foldl {α : Type} (key : α → String) (l : List α) (c : String) :
    ∀ init : List (String × List α),
    groupOf (l.foldl (fun acc p => addToGroup acc (key p) p) init) c =
      groupOf init c ++ l.filter (fun p => key p == c) := by
  induction l with
  | nil => intro init; simp
  | cons q rest ih =>
    intro init
    simp only [List.foldl_cons]
    rw [ih (addToGroup init (key q) q), groupOf_addToGroup]
    by_cases h : key q = c
    · rw [if_pos h, List.filter_cons_of_pos (by simpa using h), List.append_assoc]
      rfl
    · rw [if_neg h, List.filter_cons_of_neg (by simpa using h)]

theorem groupByClassIx_groupOf (l : List (ℕ × Record)) (c : String) :
    groupOf (groupByClassIx l) c = l.filter (fun p => classKeyOf p.2 == c) := by
  have h := groupOf_foldl (fun p : ℕ × Record => classKeyOf p.2) l c []
  simpa [groupByClassIx, groupOf_nil] using h

theorem calcRanksIx_exists_rank_one (key rk : String) (l : List (ℕ × Record))
    (hl : l ≠ []) :
    ∃ p ∈ calcRanksIx key rk l, getVal p.2 rk = some (.num 1) := by
  unfold calcRanksIx
  rw [rankAll_unfold]
  cases hs : l.mergeSort (fun a b => decide (numOr0 b.2 key ≤ numOr0 a.2 key)) with
  | nil =>
    exfalso
    have hlen := (List.mergeSort_perm l
      (fun a b => decide (numOr0 b.2 key ≤ numOr0 a.2 key))).length_eq
    rw [hs] at hlen
    exact hl (List.length_eq_zero.mp hlen.symm)
  | cons y rest =>
    refine ⟨_, List.mem_cons_self _ _, ?_⟩
    show getVal (setVal y.2 rk (.num ((1 : ℕ) : ℚ))) rk = some (.num 1)
    rw [getVal_setVal_self]
    norm_num

theorem calcRanksIx_image_mem (key rk : String) (l : List (ℕ × Record))
    (x : ℕ × Record) (hx : x ∈ l) :
    ∃ n : ℕ, (x.1, setVal x.2 rk (.num n)) ∈ calcRanksIx key rk l :=
  rankAll_image_mem _ _ l x hx

theorem calcRanksIx_ne_nil (key rk : String) (l : List (ℕ × Record)) (hl : l ≠ []) :
    calcRanksIx key rk l ≠ [] :=
  rankAll_ne_nil _ _ l hl

theorem runRanksIx_exists_rank_one (pairs : List (String × String)) (rk0 : String)
    (l : List (ℕ × Record)) (hl : l ≠ [])
    (hstart : ∃ p ∈ l, getVal p.2 rk0 = some (.num 1)) :
    ∃ p ∈ runRanksIx pairs l, getVal p.2 rk0 = some (.num 1) := by
  induction pairs generalizing l with
  | nil => simpa [runRanksIx] using hstart
  | cons pr rest ih =>
    rw [show runRanksIx (pr :: rest) l =
      runRanksIx rest (calcRanksIx pr.1 pr.2 l) from rfl]
    have hstep : ∃ p ∈ calcRanksIx pr.1 pr.2 l, getVal p.2 rk0 = some (.num 1) := by
      by_cases hrk : pr.2 = rk0
      · subst hrk
        exact calcRanksIx_exists_rank_one pr.1 pr.2 l hl
      · obtain ⟨p, hp, hv⟩ := hstart
        obtain ⟨n, hmem⟩ := calcRanksIx_image_mem pr.1 pr.2 l p hp
        exact ⟨_, hmem, by rw [getVal_setVal_ne _ _ _ _ hrk]; exact hv⟩
    exact ih (calcRanksIx pr.1 pr.2 l) (calcRanksIx_ne_nil _ _ _ hl) hstep

theorem runRanksIx_count_one (pairs : List (String × String)) (l : List (ℕ × Record))
    (hnodup : ∀ p ∈ l, (p.2.map Prod.fst).Nodup) (k rk : String)
    (hmem : (k, rk) ∈ pairs) :
    ∀ p ∈ runRanksIx pairs l, (p.2.map Prod.fst).count rk = 1 := by
  induction pairs generalizing l with
  | nil => simp at hmem
  | cons pr rest ih =>
    have hnodup' : ∀ p ∈ calcRanksIx pr.1 pr.2 l, (p.2.map Prod.fst).Nodup := by
      intro p hp
      obtain ⟨x, hx, n, rfl⟩ := mem_calcRanksIx _ _ _ _ hp
      exact nodup_keys_setVal _ _ _ (hnodup x hx)
    intro p hp
    rw [show runRanksIx (pr :: rest) l =
      runRanksIx rest (calcRanksIx pr.1 pr.2 l) from rfl] at hp
    by_cases hmem' : (k, rk) ∈ rest
    · exact ih _ hnodup' hmem' p hp
    · have hpr : pr = (k, rk) := by
        rcases List.mem_cons.mp hmem with h | h
        · exact h.symm
        · exact absurd h hmem'
      subst hpr
      have hpres : ∀ q ∈ calcRanksIx k rk l,
          (q.2.map Prod.fst).Nodup ∧ rk ∈ q.2.map Prod.fst := by
        intro q hq
        obtain ⟨x, hx, n, rfl⟩ := mem_calcRanksIx _ _ _ _ hq
        exact ⟨nodup_keys_setVal _ _ _ (hnodup x hx), mem_keys_setVal_self _ _ _⟩
      have h2 := runRanksIx_pres
        (fun r => (r.map Prod.fst).Nodup ∧ rk ∈ r.map Prod.fst)
        (fun r k' v h => ⟨nodup_keys_setVal _ _ _ h.1,
          mem_keys_setVal_of_mem _ _ _ _ h.2⟩)
        rest _ hpres p hp
      exact List.count_eq_one_of_mem h2.1 h2.2

/-- Claim C8: the per-class rank stage partitions the cohort by the class key
(each class's group is exactly the in-order sublist of rows with that key, and
the groups jointly exhaust the cohort); a class's ranked group depends only on
that class's own members, never on cohort-wide data; every non-empty class has
a member with class rank 1; and every member of a class receives exactly one
class rank for each class-scoped metric. -/
theorem claim_C8_per_class_ranking (subjects small4 : List String)
    (l l₂ : List (ℕ × Record)) (c : String)
    (hnodup : ∀ p ∈ l, (p.2.map Prod.fst).Nodup)
    (k rk : String) (hkrk : (k, rk) ∈ classRankPairs subjects small4) :
    groupOf (groupByClassIx l) c = l.filter (fun p => classKeyOf p.2 == c) ∧
    ((groupByClassIx l).map Prod.snd).flatten.Perm l ∧
    (l.filter (fun p => classKeyOf p.2 == c) =
        l₂.filter (fun p => classKeyOf p.2 == c) →
      runRanksIx (classRankPairs subjects small4) (groupOf (groupByClassIx l) c) =
        runRanksIx (classRankPairs subjects small4) (groupOf (groupByClassIx l₂) c)) ∧
    (groupOf (groupByClassIx l) c ≠ [] →
      ∃ p ∈ runRanksIx (classRankPairs subjects small4)
          (groupOf (groupByClassIx l) c),
        getVal p.2 "classRank_raw" = some (.num 1)) ∧
    (∀ p ∈ runRanksIx (classRankPairs subjects small4)
        (groupOf (groupByClassIx l) c),
      (p.2.map Prod.fst).count rk = 1) := by
  refine ⟨groupByClassIx_groupOf l c, groupByClassIx_flatten_perm l, ?_, ?_, ?_⟩
  · intro hfilter
    rw [groupByClassIx_groupOf, groupByClassIx_groupOf, hfilter]
  · intro hne
    have hfirst : ∃ p ∈ calcRanksIx "_rawTotal" "classRank_raw"
        (groupOf (groupByClassIx l) c),
        getVal p.2 "classRank_raw" = some (.num 1) :=
      calcRanksIx_exists_rank_one _ _ _ hne
    rw [show runRanksIx (classRankPairs subjects small4) (groupOf (groupByClassIx l) c) =
      runRanksIx (("_assignedTotal", "classRank_assigned") ::
        subjects.foldr (fun s acc =>
          (s, "classRank_" ++ s) ::
            ((if small4.contains s then
              [("assigned_" ++ s, "classRank_assigned_" ++ s)] else []) ++ acc)) [])
        (calcRanksIx "_rawTotal" "classRank_raw" (groupOf (groupByClassIx l) c)) from rfl]
    exact runRanksIx_exists_rank_one _ _ _
      (calcRanksIx_ne_nil _ _ _ hne) hfirst
  · have hsub : ∀ p ∈ groupOf (groupByClassIx l) c, (p.2.map Prod.fst).Nodup := by
      intro p hp
      rw [groupByClassIx_groupOf] at hp
      exact hnodup p (List.mem_of_mem_filter hp)
    exact runRanksIx_count_one _ _ hsub k rk hkrk

/-- Witness for C8 on a two-class cohort: the 一班 group is its filter, some
一班 member holds class rank 1, and every member carries exactly one
classRank_raw binding. -/
theorem claim_C8_witness :
    groupOf (groupByClassIx
      [(0, [("class", JSVal.str "一班"), ("_rawTotal", JSVal.num 90)]),
       (1, [("class", JSVal.str "二班"), ("_rawTotal", JSVal.num 80)])]) "一班" =
      [(0, [("class", JSVal.str "一班"), ("_rawTotal", JSVal.num 90)]),
       (1, [("class", JSVal.str "二班"), ("_rawTotal", JSVal.num 80)])].filter
        (fun p => classKeyOf p.2 == "一班") ∧
    ((groupByClassIx
      [(0, [("class", JSVal.str "一班"), ("_rawTotal", JSVal.num 90)]),
       (1, [("class", JSVal.str "二班"), ("_rawTotal", JSVal.num 80)])]).map
        Prod.snd).flatten.Perm
      [(0, [("class", JSVal.str "一班"), ("_rawTotal", JSVal.num 90)]),
       (1, [("class", JSVal.str "二班"), ("_rawTotal", JSVal.num 80)])] ∧
    (∃ p ∈ runRanksIx (classRankPairs [] [])
        (groupOf (groupByClassIx
          [(0, [("class", JSVal.str "一班"), ("_rawTotal", JSVal.num 90)]),
           (1, [("class", JSVal.str "二班"), ("_rawTotal", JSVal.num 80)])]) "一班"),
      getVal p.2 "classRank_raw" = some (.num 1)) ∧
    (∀ p ∈ runRanksIx (classRankPairs [] [])
        (groupOf (groupByClassIx
          [(0, [("class", JSVal.str "一班"), ("_rawTotal", JSVal.num 90)]),
           (1, [("class", JSVal.str "二班"), ("_rawTotal", JSVal.num 80)])]) "一班"),
      (p.2.map Prod.fst).count "classRank_raw" = 1) := by
  have h := claim_C8_per_class_ranking [] []
    [(0, [("class", JSVal.str "一班"), ("_rawTotal", JSVal.num 90)]),
     (1, [("class", JSVal.str "二班"), ("_rawTotal", JSVal.num 80)])]
    [(0, [("class", JSVal.str "一班"), ("_rawTotal", JSVal.num 90)]),
     (1, [("class", JSVal.str "二班"), ("_rawTotal", JSVal.num 80)])]
    "一班" (by decide) "_rawTotal" "classRank_raw" (by decide)
  refine ⟨h.1, h.2.1, h.2.2.2.1 ?_, h.2.2.2.2⟩
  rw [h.1]
  decide
